import Mathlib

/-!
Verification of the `bdep` workspace build tool.

Shallow embedding of the core of the repository:
  * `src/utils/mtime.ts`   — incremental build decision (`needsBuild`)
  * `src/core/workspace.ts`— transitive dependency collection (`collectDependencies`)
  * `src/core/graph.ts`    — graph construction, Kahn topological sort, layering
  * `src/core/builder.ts`  — per-package build execution and the concurrency limiter

Conventions used throughout:
  * JavaScript `Map` values are modelled as association lists
    `List (String × α)`; lookups find the first matching key, and inputs
    that come from a `Map` carry a `Nodup` hypothesis on their keys.
  * JavaScript `Set` values are modelled as insertion-ordered duplicate-free
    lists, built with `setAdd` (add only if absent).
  * File modification times (`mtimeMs`) are modelled as natural numbers;
    only their order and comparison with the literal `0` matter to the code.
  * Loops with data-dependent termination are modelled with an explicit
    fuel parameter; the fuel chosen is proved (or, for concrete instances,
    computed) to be sufficient, so the embedding agrees with the source
    loop on every input the claims quantify over.
-/

namespace Bdep

/-! ### Association-list and set primitives -/

/-- First-match lookup in an association list, the model of `Map.get`. -/
def alookup {α : Type} (l : List (String × α)) (k : String) : Option α :=
  match l with
  | [] => none
  | (k', v) :: t => if k' = k then some v else alookup t k

/-- Key list of an association list (`Map.keys`, in insertion order). -/
def akeys {α : Type} (l : List (String × α)) : List String :=
  l.map Prod.fst

/-- Membership test for a key (`Map.has`). -/
def ahasKey {α : Type} (l : List (String × α)) (k : String) : Bool :=
  (alookup l k).isSome

/-- JavaScript `Set.add`: append the element only when it is absent. -/
def setAdd (s : List String) (x : String) : List String :=
  if x ∈ s then s else s ++ [x]

/-! ### `src/utils/mtime.ts` — the incremental decision

The filesystem probing (`walkDir`, `fs.stat`) is an external collaborator;
a package's on-disk state is abstracted to the data the numeric logic of
`mtime.ts` actually consumes: whether the `dist` directory exists, and the
lists of modification times of the source files (the files under the
package directory surviving the fixed `EXCLUDE_DIRS` filter) and of the
files under `dist`. -/

/-- Abstract filesystem state of one package, as observed by `needsBuild`. -/
structure PkgFs where
  distExists : Bool
  sourceMtimes : List Nat
  distMtimes : List Nat

/-- `getNewestMtime` of `mtime.ts`: 0 on an empty file list, otherwise the
fold `if (mtime > newest) newest = mtime` starting from `newest = 0`. -/
def getNewestMtime (mtimes : List Nat) : Nat :=
  if mtimes = [] then 0
  else mtimes.foldl (fun newest m => if m > newest then m else newest) 0

/-- `getOldestMtime` of `mtime.ts`: 0 on an empty file list, otherwise the
fold `if (mtime < oldest) oldest = mtime` starting from `oldest = Infinity`
(modelled as `none`), with the final `oldest === Infinity ? 0 : oldest`. -/
def getOldestMtime (mtimes : List Nat) : Nat :=
  if mtimes = [] then 0
  else
    match mtimes.foldl
        (fun oldest m =>
          match oldest with
          | none => some m
          | some o => if m < o then some m else some o)
        none with
    | none => 0
    | some o => o

/-- `needsBuild` of `mtime.ts`:
1. no `dist` directory → `true`;
2. `oldestDist === 0` (empty `dist`) → `true`;
3. `newestSource === 0` (no sources) → `false`;
4. otherwise `newestSource > oldestDist`. -/
def needsBuild (fs : PkgFs) : Bool :=
  if !fs.distExists then true
  else
    let newestSource := getNewestMtime fs.sourceMtimes
    let oldestDist := getOldestMtime fs.distMtimes
    if oldestDist = 0 then true
    else if newestSource = 0 then false
    else decide (newestSource > oldestDist)

/-! ### `src/core/workspace.ts` — dependency collection

`PackageInfo` keeps the fields of the source record the core consumes:
`name`, `path`, the declared `workspaceDeps`, and — standing for the
`packageJson` field — the package's build script (`packageJson.scripts?.build`),
the only part of `packageJson` the builder reads. -/

structure PackageInfo where
  name : String
  path : String
  buildScript : Option String
  workspaceDeps : List String
deriving DecidableEq

/-- `collectRecursive` of `workspace.ts`. State is the `visited` name set and
the `result` map. The source recursion terminates because `visited` grows;
here a fuel argument drives the recursion. The fuel only bounds the
recursion depth, and the depth of meaningful calls is bounded by the number
of distinct keys of `allPackages`, so the fuel used by `collectDependencies`
below never runs out on a call that would do further work. -/
def collectRec (all : List (String × PackageInfo)) :
    Nat → String → List String × List (String × PackageInfo) →
    List String × List (String × PackageInfo)
  | 0, _, st => st
  | fuel + 1, depName, (visited, result) =>
    if depName ∈ visited then (visited, result)
    else
      let visited' := visited ++ [depName]
      match alookup all depName with
      | none => (visited', result)
      | some pkg =>
        pkg.workspaceDeps.foldl (fun st t => collectRec all fuel t st)
          (visited', result ++ [(depName, pkg)])

/-- `collectDependencies` of `workspace.ts`, with workspace discovery
abstracted: `all` is the map produced by `discoverAllWorkspacePackages`
and `start` the record parsed from the starting package's `package.json`.
If the starting package declares no workspace dependencies the empty map
is returned before any discovery; otherwise `collectRecursive` runs from
each declared dependency. -/
def collectDependencies (all : List (String × PackageInfo))
    (start : PackageInfo) : List (String × PackageInfo) :=
  if start.workspaceDeps = [] then []
  else
    (start.workspaceDeps.foldl
      (fun st dep => collectRec all (all.length + 1) dep st) ([], [])).2

/-- Reachability through declared workspace dependencies, resolved in
`all` exactly as `collectRecursive` resolves them. -/
inductive DepReaches (all : List (String × PackageInfo)) : String → String → Prop
  | refl (a : String) : DepReaches all a a
  | step {a c : String} (pkg : PackageInfo) (b : String) :
      alookup all a = some pkg → b ∈ pkg.workspaceDeps →
      DepReaches all b c → DepReaches all a c

/-! ### `src/core/graph.ts` — graph construction -/

structure DependencyGraph where
  nodes : List (String × PackageInfo)
  edges : List (String × List String)
  reverseEdges : List (String × List String)
deriving DecidableEq

/-- Model of `m.get(k)!.add(x)`: the set stored at an existing key `k` gains
`x`. In the source the key is always present when this runs (both adjacency
maps are initialised with an entry per package); on an absent key the model
leaves the map unchanged. -/
def mapAddTo (m : List (String × List String)) (k x : String) :
    List (String × List String) :=
  m.map (fun e => if e.1 = k then (e.1, setAdd e.2 x) else e)

/-- The pair of adjacency maps under construction. -/
def EdgePair : Type :=
  List (String × List String) × List (String × List String)

/-- The loop body of `buildDependencyGraph` for one declared dependency:
`if (packages.has(dep)) { edges.get(name)!.add(dep); reverseEdges.get(dep)!.add(name); }`. -/
def addEdgeStep (packages : List (String × PackageInfo)) (name : String)
    (er : EdgePair) (dep : String) : EdgePair :=
  if ahasKey packages dep
  then (mapAddTo er.1 name dep, mapAddTo er.2 dep name)
  else er

/-- The loop body of `buildDependencyGraph` for one package: iterate
`addEdgeStep` over its declared workspace dependencies. -/
def addPackageEdges (packages : List (String × PackageInfo))
    (er : EdgePair) (e : String × PackageInfo) : EdgePair :=
  e.2.workspaceDeps.foldl (addEdgeStep packages e.1) er

/-- `buildDependencyGraph` of `graph.ts`: initialise an empty edge set and
reverse-edge set per package, then for every package and every declared
dependency present in the package set add the forward and reverse edges. -/
def buildDependencyGraph (packages : List (String × PackageInfo)) :
    DependencyGraph :=
  let init : List (String × List String) := packages.map (fun e => (e.1, []))
  let er := packages.foldl (addPackageEdges packages) (init, init)
  ⟨packages, er.1, er.2⟩

/-- Forward adjacency (`graph.edges.get(n)`, defaulting to the empty set as
in `graph.edges.get(pkg) || new Set()`). -/
def edgesOf (g : DependencyGraph) (n : String) : List String :=
  (alookup g.edges n).getD []

/-- Reverse adjacency (`graph.reverseEdges.get(n) || []`). -/
def revEdgesOf (g : DependencyGraph) (n : String) : List String :=
  (alookup g.reverseEdges n).getD []

def graphKeys (g : DependencyGraph) : List String :=
  akeys g.nodes

/-- The invariants of the `DependencyGraph` data model (§3 of the design):
node keys are unique (they come from a `Map`), both adjacency maps have
exactly the node names as keys, adjacency values are duplicate-free sets of
node names, and the two adjacency maps are transposes of each other. -/
def WellFormed (g : DependencyGraph) : Prop :=
  (graphKeys g).Nodup ∧
  akeys g.edges = graphKeys g ∧
  akeys g.reverseEdges = graphKeys g ∧
  (∀ n ∈ graphKeys g, (edgesOf g n).Nodup ∧ ∀ d ∈ edgesOf g n, d ∈ graphKeys g) ∧
  (∀ n ∈ graphKeys g, (revEdgesOf g n).Nodup ∧ ∀ d ∈ revEdgesOf g n, d ∈ graphKeys g) ∧
  (∀ a ∈ graphKeys g, ∀ b ∈ graphKeys g, (b ∈ edgesOf g a ↔ a ∈ revEdgesOf g b))

instance (g : DependencyGraph) : Decidable (WellFormed g) := by
  unfold WellFormed; infer_instance

/-- `a` depends (directly) on `b`. -/
def Edge (g : DependencyGraph) (a b : String) : Prop :=
  b ∈ edgesOf g a

/-- The graph has no dependency cycle. -/
def Acyclic (g : DependencyGraph) : Prop :=
  ¬ ∃ a, Relation.TransGen (Edge g) a a

/-- `n` can reach a dependency cycle (possibly being on one itself). -/
def ReachesCycle (g : DependencyGraph) (n : String) : Prop :=
  ∃ a, Relation.ReflTransGen (Edge g) n a ∧ Relation.TransGen (Edge g) a a

/-- The two error conditions thrown by `graph.ts`; the source throws
`Error` values whose messages are built injectively from this data
(`Circular dependency detected involving: <remaining>` and
`Could not make progress - possible circular dependency`). -/
inductive GraphError where
  | cycleDetected (remaining : List String)
  | layeringNoProgress
deriving DecidableEq

/-! ### `src/core/graph.ts` — Kahn's algorithm -/

/-- Model of `inDegree.set(k, v)` on an existing key; in `topologicalSort`
every updated key was inserted by the initialisation pass. -/
def aset (m : List (String × Int)) (k : String) (v : Int) :
    List (String × Int) :=
  m.map (fun e => if e.1 = k then (e.1, v) else e)

/-- The loop body fragment `for (const dependent of reverseEdges.get(current))`:
decrement each dependent's count, collecting (in order) those that hit
exactly 0 for the queue. A dependent missing from the map is left alone:
in the source it would receive the value `NaN`, which never compares equal
to 0 and is never read again, so the returned data is the same. -/
def decrementDeps (inDeg : List (String × Int)) (dependents : List String) :
    List (String × Int) × List String :=
  dependents.foldl
    (fun st d =>
      match alookup st.1 d with
      | none => st
      | some v => (aset st.1 d (v - 1), if v - 1 = 0 then st.2 ++ [d] else st.2))
    (inDeg, [])

/-- The `while (queue.length > 0)` loop of `topologicalSort`: shift the
head, append it to the result, decrement its dependents and enqueue the new
zeros. Driven by fuel; `topologicalSort` passes `nodes.length + 1`, which
is proved sufficient (each iteration moves a fresh node into `result`). -/
def kahnLoop (g : DependencyGraph) :
    Nat → List (String × Int) → List String → List String → List String
  | 0, _, _, result => result
  | fuel + 1, inDeg, queue, result =>
    match queue with
    | [] => result
    | current :: rest =>
      let step := decrementDeps inDeg (revEdgesOf g current)
      kahnLoop g fuel step.1 (rest ++ step.2) (result ++ [current])

/-- The initial `inDegree` map: each node's count of forward edges. -/
def initialInDegree (g : DependencyGraph) : List (String × Int) :=
  g.nodes.map (fun e => (e.1, ((edgesOf g e.1).length : Int)))

/-- The body of `topologicalSort` up to the termination check: initialise
the degree map, queue the zero-degree nodes in map iteration order, and run
the loop. -/
def kahnRun (g : DependencyGraph) : List String :=
  let inDeg := initialInDegree g
  let queue := (inDeg.filter (fun e => e.2 = 0)).map Prod.fst
  kahnLoop g (g.nodes.length + 1) inDeg queue []

/-- `topologicalSort` of `graph.ts` (Kahn's algorithm). If the produced
ordering misses nodes, the cycle error names exactly the nodes absent
from it. -/
def topologicalSort (g : DependencyGraph) : Except GraphError (List String) :=
  let result := kahnRun g
  if result.length ≠ g.nodes.length then
    .error (.cycleDetected ((graphKeys g).filter (fun n => n ∉ result)))
  else
    .ok result

/-- The loop invariant of Kahn's algorithm in `topologicalSort`: the degree
map stores, for every node, the number of its dependencies not yet placed
in `result`; the queue holds exactly the unprocessed nodes whose
dependencies are all placed; every prefix of `result` is
dependency-closed. -/
structure KahnInv (g : DependencyGraph) (inDeg : List (String × Int))
    (queue result : List String) : Prop where
  degKeys : akeys inDeg = graphKeys g
  degVal : ∀ n ∈ graphKeys g,
    alookup inDeg n =
      some (((edgesOf g n).filter (fun d => decide (d ∉ result))).length : Int)
  queueKeys : ∀ n ∈ queue, n ∈ graphKeys g
  resKeys : ∀ n ∈ result, n ∈ graphKeys g
  queueNodup : queue.Nodup
  resNodup : result.Nodup
  disj : ∀ n ∈ queue, n ∉ result
  queueReady : ∀ n ∈ queue, ∀ d ∈ edgesOf g n, d ∈ result
  resOrdered : ∀ (i : Nat) (h : i < result.length),
    ∀ d ∈ edgesOf g result[i], d ∈ result.take i
  resComplete : ∀ n ∈ graphKeys g, n ∉ queue → n ∉ result →
    ∃ d ∈ edgesOf g n, d ∉ result

/-! ### `src/core/graph.ts` — build layers -/

/-- One scan of the remaining ordered nodes (`for (const pkg of
sortedPackages)`): collect every unassigned node all of whose dependencies
are already assigned. -/
def computeLayer (sorted assigned : List String) (g : DependencyGraph) :
    List String :=
  sorted.filter
    (fun p => !(decide (p ∈ assigned)) && (edgesOf g p).all (fun d => decide (d ∈ assigned)))

/-- The `while (assigned.size < sortedPackages.length)` loop of
`getBuildLayers`. An empty layer throws the no-progress error. Fuel-driven;
`getBuildLayers` passes `sorted.length + 1`, which is proved sufficient
(each pass grows `assigned`). The fuel-exhaustion branch reuses the
no-progress error and is unreachable for that fuel. -/
def layersGo (g : DependencyGraph) (sorted : List String) :
    Nat → List String → List (List String) →
    Except GraphError (List (List String))
  | 0, assigned, acc =>
    if assigned.length < sorted.length then .error .layeringNoProgress
    else .ok acc
  | fuel + 1, assigned, acc =>
    if assigned.length < sorted.length then
      let layer : List String := computeLayer sorted assigned g
      if layer = [] then .error .layeringNoProgress
      else layersGo g sorted fuel (layer.foldl setAdd assigned) (acc ++ [layer])
    else .ok acc

/-- `getBuildLayers` of `graph.ts`. -/
def getBuildLayers (sorted : List String) (g : DependencyGraph) :
    Except GraphError (List (List String)) :=
  layersGo g sorted (sorted.length + 1) [] []

/-- The sequences of layers the `getBuildLayers` loop can produce from a
given `assigned` set: each layer is the scan result for the current
`assigned` set, is non-empty, and is folded into `assigned` for the rest. -/
inductive LayersFrom (g : DependencyGraph) (sorted : List String) :
    List String → List (List String) → Prop
  | nil {assigned : List String} :
      ¬ (assigned.length < sorted.length) → LayersFrom g sorted assigned []
  | cons {assigned : List String} {rest : List (List String)} :
      assigned.length < sorted.length →
      computeLayer sorted assigned g ≠ [] →
      LayersFrom g sorted
        ((computeLayer sorted assigned g).foldl setAdd assigned) rest →
      LayersFrom g sorted assigned ((computeLayer sorted assigned g) :: rest)

/-- The `assigned` set after the first `i` of the given layers have been
folded in, starting from `assigned`. -/
def assignedUpTo (assigned : List String) (layers : List (List String))
    (i : Nat) : List String :=
  (layers.take i).foldl (fun s l => l.foldl setAdd s) assigned

/-- The scheduling pipeline of the CLI entry point:
`topologicalSort` then `getBuildLayers` on the same graph. -/
def layersOf (g : DependencyGraph) : Except GraphError (List (List String)) :=
  (topologicalSort g).bind (fun sorted => getBuildLayers sorted g)

/-- Index of the layer containing `p` (for stating layer-order facts). -/
def layerIndexIn (layers : List (List String)) (p : String) : Nat :=
  layers.findIdx (fun l => l.contains p)

/-! ### `src/core/builder.ts` — build execution

`runCommand` (a subprocess) and the filesystem are external collaborators,
passed in as `runOk : String → Bool` (success of `bun run build` in a
package directory) and `env : String → PkgFs` (the filesystem state
`needsBuild` observes for a package path). -/

/-- The `status` union of `BuildResult` in `builder.ts`:
`"built" | "skipped" | "unchanged"`. -/
inductive BuildStatus where
  | built
  | skipped
  | unchanged
deriving DecidableEq

structure BuildResult where
  name : String
  status : BuildStatus
deriving DecidableEq

structure BuildOptions where
  force : Bool := false
  parallel : Option Nat := none

/-- `buildPackage` of `builder.ts`: no build script → `skipped`; without
`force`, a package that does not need building → `unchanged`; otherwise run
the build: success → `built`, failure → a thrown error naming the package
(`Build failed for <name>`). -/
def buildPackage (env : String → PkgFs) (runOk : String → Bool)
    (pkg : PackageInfo) (opts : BuildOptions) : Except String BuildResult :=
  match pkg.buildScript with
  | none => .ok ⟨pkg.name, .skipped⟩
  | some _ =>
    if !opts.force && !(needsBuild (env pkg.path)) then .ok ⟨pkg.name, .unchanged⟩
    else if runOk pkg.path then .ok ⟨pkg.name, .built⟩
    else .error ("Build failed for " ++ pkg.name)

/-- `options.parallel ?? os.cpus().length` in `buildAll`. -/
def resolveParallel (opts : BuildOptions) (cpuCount : Nat) : Nat :=
  opts.parallel.getD cpuCount

/-- Value-level model of `buildAll`: layer by layer, look up each layer's
packages (`packages.get(name)!`, modelled by dropping names the map lacks —
on such a name the source would crash), keep the ones with a build script,
and build each; a failed build rejects the whole run. The within-layer
interleaving of `runWithConcurrency` is modelled separately (`ExecStep`);
it does not affect which value `buildAll` resolves to: `Promise<void>`,
i.e. no per-package report. -/
def buildAllModel (env : String → PkgFs) (runOk : String → Bool)
    (layers : List (List String)) (packages : List (String × PackageInfo))
    (opts : BuildOptions) : Except String Unit :=
  (layers.mapM
    (fun (layer : List String) =>
      ((layer.filterMap (alookup packages)).filter
          (fun p => p.buildScript.isSome)).mapM
        (fun p => buildPackage env runOk p opts))).map (fun _ => ())

/-! ### `runWithConcurrency` — admission semantics

In `runWithConcurrency` the `executing` array never shrinks: the filter
callback `e.then(() => { resolved = true; }); return !resolved;` registers
`resolved = true` as a microtask that cannot have run when `!resolved` is
returned, so the filter keeps every promise, settled or not, and the splice
rewrites the array with the same elements. Consequently
`await Promise.race(executing)` suspends only while no promise launched so
far has settled; once any item has ever finished, every later `race`
resolves immediately and the next item is launched at once.

The model: items are naturals, launched in list order. A `launch` of the
next item is admitted when fewer than `limit` items have been launched
(the loop has not yet reached an `await`) or when at least one item has
already finished (every `await Promise.race` then resolves immediately).
The environment may `finish` any launched, unfinished item; in the traces
used below, finishes happen only while the loop is genuinely suspended. -/

structure ExecConfig where
  pending : List Nat
  launched : List Nat
  finished : List Nat
deriving DecidableEq

/-- Items launched and not yet finished: the build invocations in flight. -/
def inFlight (c : ExecConfig) : List Nat :=
  c.launched.filter (fun i => decide (i ∉ c.finished))

inductive ExecStep (limit : Nat) : ExecConfig → ExecConfig → Prop
  | launch {i : Nat} {rest launched finished : List Nat}
      (hready : launched.length < limit ∨ finished ≠ []) :
      ExecStep limit ⟨i :: rest, launched, finished⟩ ⟨rest, launched ++ [i], finished⟩
  | finish {c : ExecConfig} {i : Nat} (hl : i ∈ c.launched) (hf : i ∉ c.finished) :
      ExecStep limit c ⟨c.pending, c.launched, c.finished ++ [i]⟩

/-- Configurations reachable by the concurrency runner. -/
def ExecReachable (limit : Nat) : ExecConfig → ExecConfig → Prop :=
  Relation.ReflTransGen (ExecStep limit)

/-! ### Concrete instances used by witnesses and counterexamples -/

/-- A package whose `package.json` declares a build script. -/
def mkPkg (n : String) (deps : List String) : PackageInfo :=
  ⟨n, n, some "tsc", deps⟩

/-- A package without a build script. -/
def mkPlainPkg (n : String) (deps : List String) : PackageInfo :=
  ⟨n, n, none, deps⟩

/-- The diamond workspace of the spec's testable property: A depends on B
and C, B and C each depend on D; E is an unrelated workspace member. -/
def diamondAll : List (String × PackageInfo) :=
  [("A", mkPkg "A" ["B", "C"]), ("B", mkPkg "B" ["D"]),
   ("C", mkPkg "C" ["D"]), ("D", mkPkg "D" []), ("E", mkPkg "E" [])]

/-- The same workspace with A's dependencies discovered in the other order. -/
def diamondAllRev : List (String × PackageInfo) :=
  [("A", mkPkg "A" ["C", "B"]), ("B", mkPkg "B" ["D"]),
   ("C", mkPkg "C" ["D"]), ("D", mkPkg "D" []), ("E", mkPkg "E" [])]

/-- A two-package workspace whose members depend on each other. -/
def cycleAll : List (String × PackageInfo) :=
  [("A", mkPkg "A" ["B"]), ("B", mkPkg "B" ["A"])]

/-- A well-formed acyclic graph: `b` depends on `a`. -/
def chainGraph : DependencyGraph :=
  buildDependencyGraph [("a", mkPkg "a" []), ("b", mkPkg "b" ["a"])]

/-! ## Theorems -/

/-! ### Set and fold lemmas -/

theorem mem_setAdd {s : List String} {x y : String} :
    y ∈ setAdd s x ↔ y ∈ s ∨ y = x := by
  unfold setAdd
  split
  · constructor
    · exact fun h => Or.inl h
    · rintro (h | rfl) <;> assumption
  · simp [or_comm]

theorem setAdd_nodup {s : List String} (h : s.Nodup) (x : String) :
    (setAdd s x).Nodup := by
  unfold setAdd
  split
  · exact h
  · next hx => simpa [List.nodup_append] using ⟨h, by simpa using hx⟩

theorem setAdd_length_ge (s : List String) (x : String) :
    s.length ≤ (setAdd s x).length := by
  unfold setAdd; split <;> simp

theorem setAdd_length_gt {s : List String} {x : String} (h : x ∉ s) :
    s.length < (setAdd s x).length := by
  unfold setAdd; split
  · next h' => exact absurd h' h
  · simp

theorem init_le_foldl_max (l : List Nat) (a : Nat) : a ≤ l.foldl max a := by
  induction l generalizing a with
  | nil => exact le_rfl
  | cons m t ih => exact le_trans (le_max_left a m) (ih (max a m))

theorem mem_le_foldl_max {l : List Nat} {m : Nat} (h : m ∈ l) (a : Nat) :
    m ≤ l.foldl max a := by
  induction l generalizing a with
  | nil => simp at h
  | cons x t ih =>
    rcases List.mem_cons.mp h with rfl | h'
    · exact le_trans (le_max_right a m) (init_le_foldl_max t (max a m))
    · exact ih h' (max a x)

theorem foldl_min_pos {l : List Nat} {a : Nat} (ha : 0 < a)
    (hl : ∀ m ∈ l, 0 < m) : 0 < l.foldl min a := by
  induction l generalizing a with
  | nil => exact ha
  | cons m t ih =>
    exact ih (lt_min ha (hl m (by simp))) (fun x hx => hl x (by simp [hx]))

/-! ### `mtime.ts` lemmas -/

theorem getNewestMtime_foldl (mtimes : List Nat) (a : Nat) :
    mtimes.foldl (fun newest m => if m > newest then m else newest) a
      = mtimes.foldl max a := by
  induction mtimes generalizing a with
  | nil => rfl
  | cons m t ih =>
    simp only [List.foldl_cons, ih]
    congr 1
    by_cases h : m > a
    · simp [h, Nat.max_eq_right (le_of_lt h), if_pos h]
    · simp [h, Nat.max_eq_left (le_of_not_lt h), if_neg h]

theorem getNewestMtime_le (mtimes : List Nat) (m : Nat) (h : m ∈ mtimes) :
    m ≤ getNewestMtime mtimes := by
  unfold getNewestMtime
  rw [if_neg (by rintro rfl; simp at h), getNewestMtime_foldl]
  exact mem_le_foldl_max h 0

theorem getNewestMtime_pos {mtimes : List Nat} (hne : mtimes ≠ [])
    (hp : ∀ m ∈ mtimes, 0 < m) : 0 < getNewestMtime mtimes := by
  match mtimes, hne with
  | m :: t, _ =>
    exact lt_of_lt_of_le (hp m (by simp)) (getNewestMtime_le _ _ (by simp))

theorem getOldestMtime_foldl (mtimes : List Nat) (a : Nat) :
    mtimes.foldl
        (fun oldest m =>
          match oldest with
          | none => some m
          | some o => if m < o then some m else some o)
        (some a)
      = some (mtimes.foldl min a) := by
  induction mtimes generalizing a with
  | nil => rfl
  | cons m t ih =>
    simp only [List.foldl_cons]
    by_cases h : m < a
    · simpa [h, Nat.min_eq_right (le_of_lt h)] using ih m
    · simpa [h, Nat.min_eq_left (le_of_not_lt h)] using ih a

theorem getOldestMtime_cons (m : Nat) (t : List Nat) :
    getOldestMtime (m :: t) = t.foldl min m := by
  unfold getOldestMtime
  rw [if_neg (by simp)]
  simp only [List.foldl_cons, getOldestMtime_foldl]

theorem getOldestMtime_pos {mtimes : List Nat} (hne : mtimes ≠ [])
    (hp : ∀ m ∈ mtimes, 0 < m) : 0 < getOldestMtime mtimes := by
  match mtimes, hne with
  | m :: t, _ =>
    rw [getOldestMtime_cons]
    exact foldl_min_pos (hp m (by simp)) (fun x hx => hp x (by simp [hx]))

/-! ### Claim C3 — the incremental decision -/

/-- C3 counterexample: a package whose `dist` contains one file and whose
sources are non-empty, all with modification time 0 (the Unix epoch).
`needsBuild` reports stale although the newest source time is not greater
than the oldest output time, because the code conflates a zero oldest
output time with an empty output directory. -/
theorem needsBuild_zero_mtime_cex :
    (⟨true, [0], [0]⟩ : PkgFs).sourceMtimes ≠ [] ∧
    (⟨true, [0], [0]⟩ : PkgFs).distMtimes ≠ [] ∧
    needsBuild ⟨true, [0], [0]⟩ = true ∧
    ¬ (getOldestMtime [0] < getNewestMtime [0]) := by
  refine ⟨by simp, by simp, by decide, by decide⟩

/-- C3 (amended): a package with no output directory is stale; for a
package whose output directory contains at least one file and whose
sources are non-empty, all with positive modification times, the decision
is stale iff the newest source time strictly exceeds the oldest output
time; and touching a single source file to a time later than the oldest
output flips the decision to stale. (The positivity hypotheses are forced
by the counterexample: the code treats a zero oldest output time as an
empty output directory and a zero newest source time as having no
sources.) -/
theorem needsBuild_mtime_spec :
    (∀ fs : PkgFs, fs.distExists = false → needsBuild fs = true) ∧
    (∀ fs : PkgFs, fs.distExists = true →
      fs.sourceMtimes ≠ [] → fs.distMtimes ≠ [] →
      (∀ m ∈ fs.sourceMtimes, 0 < m) → (∀ m ∈ fs.distMtimes, 0 < m) →
      (needsBuild fs = true ↔
        getOldestMtime fs.distMtimes < getNewestMtime fs.sourceMtimes)) ∧
    (∀ (fs : PkgFs) (t : Nat), fs.distExists = true → fs.distMtimes ≠ [] →
      (∀ m ∈ fs.distMtimes, 0 < m) → getOldestMtime fs.distMtimes < t →
      needsBuild ⟨true, t :: fs.sourceMtimes, fs.distMtimes⟩ = true) := by
  refine ⟨?_, ?_, ?_⟩
  · intro fs hd
    simp [needsBuild, hd]
  · intro fs hd hs ho hps hpo
    have hno : getNewestMtime fs.sourceMtimes ≠ 0 :=
      Nat.pos_iff_ne_zero.mp (getNewestMtime_pos hs hps)
    have hoo : getOldestMtime fs.distMtimes ≠ 0 :=
      Nat.pos_iff_ne_zero.mp (getOldestMtime_pos ho hpo)
    simp [needsBuild, hd, hoo, hno]
  · intro fs t hd ho hpo hlt
    have hoo : getOldestMtime fs.distMtimes ≠ 0 :=
      Nat.pos_iff_ne_zero.mp (getOldestMtime_pos ho hpo)
    have ht : t ≤ getNewestMtime (t :: fs.sourceMtimes) :=
      getNewestMtime_le _ _ (by simp)
    have hno : getNewestMtime (t :: fs.sourceMtimes) ≠ 0 := by
      have := lt_of_le_of_lt (Nat.zero_le _) (lt_of_lt_of_le hlt ht)
      omega
    simp only [needsBuild, Bool.not_true, Bool.false_eq_true, if_false,
      if_neg hoo, if_neg hno]
    simpa using lt_of_lt_of_le hlt ht

/-- C3 witness. -/
theorem needsBuild_mtime_spec_witness :
    needsBuild ⟨false, [3], [2]⟩ = true ∧
    (needsBuild ⟨true, [7], [5]⟩ = true ↔ getOldestMtime [5] < getNewestMtime [7]) ∧
    needsBuild ⟨true, 9 :: [3], [5]⟩ = true :=
  ⟨needsBuild_mtime_spec.1 ⟨false, [3], [2]⟩ rfl,
   needsBuild_mtime_spec.2.1 ⟨true, [7], [5]⟩ rfl (by simp) (by simp)
     (by decide) (by decide),
   needsBuild_mtime_spec.2.2 ⟨true, [3], [5]⟩ 9 rfl (by simp) (by decide)
     (by decide)⟩

/-! ### Claim C6 — zero source files -/

/-- C6 counterexample: a package with zero source files whose `dist`
directory exists but contains zero files. The claim says the zero-source
rule applies first, making it fresh; the code checks the empty-output rule
first and reports stale. -/
theorem needsBuild_no_sources_cex :
    (⟨true, [], []⟩ : PkgFs).sourceMtimes = [] ∧
    needsBuild ⟨true, [], []⟩ = true := by
  exact ⟨rfl, by decide⟩

/-- C6 (amended): a package with zero source files is fresh provided its
output directory is non-empty (oldest output time nonzero); when the
output directory exists but is empty the empty-output rule wins — the code
checks it before the zero-source rule — and the package is stale. -/
theorem needsBuild_no_sources_spec :
    (∀ fs : PkgFs, fs.distExists = true → fs.sourceMtimes = [] →
      getOldestMtime fs.distMtimes ≠ 0 → needsBuild fs = false) ∧
    (∀ fs : PkgFs, fs.distExists = true →
      getOldestMtime fs.distMtimes = 0 → needsBuild fs = true) := by
  constructor
  · intro fs hd hs ho
    simp [needsBuild, hd, hs, ho, getNewestMtime]
  · intro fs hd ho
    simp [needsBuild, hd, ho]

/-- C6 witness. -/
theorem needsBuild_no_sources_spec_witness :
    needsBuild ⟨true, [], [5]⟩ = false ∧ needsBuild ⟨true, [], []⟩ = true :=
  ⟨needsBuild_no_sources_spec.1 ⟨true, [], [5]⟩ rfl rfl (by decide),
   needsBuild_no_sources_spec.2 ⟨true, [], []⟩ rfl (by decide)⟩

/-! ### Association-list lemmas -/

theorem mem_akeys {α : Type} {l : List (String × α)} {k : String} :
    k ∈ akeys l ↔ ∃ v, (k, v) ∈ l := by
  unfold akeys
  constructor
  · intro h
    rcases List.mem_map.mp h with ⟨e, he, rfl⟩
    exact ⟨e.2, he⟩
  · rintro ⟨v, hv⟩
    exact List.mem_map.mpr ⟨(k, v), hv, rfl⟩

theorem alookup_mem {α : Type} {l : List (String × α)} {k : String} {v : α}
    (h : alookup l k = some v) : (k, v) ∈ l := by
  induction l with
  | nil => simp [alookup] at h
  | cons e t ih =>
    obtain ⟨k', v'⟩ := e
    rw [alookup] at h
    split at h
    · next heq =>
      cases h
      cases heq
      exact List.mem_cons_self _ _
    · exact List.mem_cons_of_mem _ (ih h)

theorem alookup_of_mem_nodup {α : Type} {l : List (String × α)}
    (hn : (akeys l).Nodup) {k : String} {v : α} (h : (k, v) ∈ l) :
    alookup l k = some v := by
  induction l with
  | nil => simp at h
  | cons e t ih =>
    obtain ⟨k', v'⟩ := e
    rw [akeys, List.map_cons, List.nodup_cons] at hn
    rcases List.mem_cons.mp h with heq | h'
    · cases heq
      simp [alookup]
    · rw [alookup]
      split
      · next he =>
        exact absurd (mem_akeys.mpr ⟨v, by simpa [he] using h'⟩) hn.1
      · exact ih hn.2 h'

theorem alookup_isSome {α : Type} {l : List (String × α)} {k : String} :
    (alookup l k).isSome ↔ k ∈ akeys l := by
  induction l with
  | nil => simp [alookup, akeys]
  | cons e t ih =>
    obtain ⟨k', v'⟩ := e
    rw [alookup]
    by_cases h : k' = k
    · simp [h, akeys]
    · have h' : ¬ k = k' := fun hh => h hh.symm
      simp only [if_neg h, akeys, List.map_cons, List.mem_cons]
      simp only [akeys] at ih
      simp [ih, h']

theorem ahasKey_iff {α : Type} {l : List (String × α)} {k : String} :
    ahasKey l k = true ↔ k ∈ akeys l :=
  alookup_isSome

/-! ### `buildDependencyGraph` characterisation (Claim C7) -/

theorem akeys_mapAddTo (m : List (String × List String)) (k x : String) :
    akeys (mapAddTo m k x) = akeys m := by
  unfold akeys mapAddTo
  rw [List.map_map]
  apply List.map_congr_left
  intro e _
  by_cases h : e.1 = k <;> simp [h]

theorem mapAddTo_cons (k' : String) (v' : List String)
    (t : List (String × List String)) (k x : String) :
    mapAddTo ((k', v') :: t) k x
      = (if k' = k then (k', setAdd v' x) else (k', v')) :: mapAddTo t k x := by
  rfl

theorem alookup_mapAddTo_self (m : List (String × List String)) (k x : String) :
    alookup (mapAddTo m k x) k = (alookup m k).map (fun s => setAdd s x) := by
  induction m with
  | nil => rfl
  | cons e t ih =>
    obtain ⟨k', v'⟩ := e
    rw [mapAddTo_cons]
    by_cases h : k' = k
    · rw [if_pos h]
      simp [alookup, h]
    · rw [if_neg h]
      simp [alookup, h, ih]

theorem alookup_mapAddTo_ne (m : List (String × List String)) {k a : String}
    (x : String) (h : a ≠ k) :
    alookup (mapAddTo m k x) a = alookup m a := by
  induction m with
  | nil => rfl
  | cons e t ih =>
    obtain ⟨k', v'⟩ := e
    rw [mapAddTo_cons]
    by_cases hk : k' = k
    · rw [if_pos hk]
      have hka : ¬ (k' = a) := by
        rw [hk]; exact fun hh => h hh.symm
      simp [alookup, hka, ih]
    · rw [if_neg hk]
      by_cases hka : k' = a
      · simp [alookup, hka]
      · simp [alookup, hka, ih]

theorem mem_getD_mapAddTo {m : List (String × List String)} {k x a b : String} :
    b ∈ (alookup (mapAddTo m k x) a).getD [] ↔
      b ∈ (alookup m a).getD [] ∨ (a = k ∧ k ∈ akeys m ∧ b = x) := by
  by_cases ha : a = k
  · subst ha
    rw [alookup_mapAddTo_self]
    cases hm : alookup m a with
    | none =>
      have : a ∉ akeys m := by
        rw [← alookup_isSome, hm]; simp
      simp [this]
    | some s =>
      have : a ∈ akeys m := by
        rw [← alookup_isSome, hm]; simp
      simp [this, mem_setAdd]
  · rw [alookup_mapAddTo_ne _ x ha]
    simp [ha]

theorem addEdgeStep_keys (packages : List (String × PackageInfo))
    (name : String) (er : EdgePair) (dep : String) :
    akeys (addEdgeStep packages name er dep).1 = akeys er.1 ∧
    akeys (addEdgeStep packages name er dep).2 = akeys er.2 := by
  unfold addEdgeStep
  split
  · exact ⟨akeys_mapAddTo _ _ _, akeys_mapAddTo _ _ _⟩
  · exact ⟨rfl, rfl⟩

theorem inner_fold_keys (packages : List (String × PackageInfo))
    (name : String) (deps : List String) (er : EdgePair) :
    akeys (deps.foldl (addEdgeStep packages name) er).1 = akeys er.1 ∧
    akeys (deps.foldl (addEdgeStep packages name) er).2 = akeys er.2 := by
  induction deps generalizing er with
  | nil => exact ⟨rfl, rfl⟩
  | cons d ds ih =>
    rw [List.foldl_cons]
    have hstep := addEdgeStep_keys packages name er d
    exact ⟨(ih _).1.trans hstep.1, (ih _).2.trans hstep.2⟩

theorem inner_fold_edges_mem (packages : List (String × PackageInfo))
    (name : String) (deps : List String) (er : EdgePair) (a b : String)
    (hk : akeys er.1 = akeys packages) (hname : name ∈ akeys packages) :
    b ∈ (alookup (deps.foldl (addEdgeStep packages name) er).1 a).getD [] ↔
      b ∈ (alookup er.1 a).getD [] ∨
        (a = name ∧ b ∈ deps ∧ ahasKey packages b = true) := by
  induction deps generalizing er with
  | nil => simp
  | cons d ds ih =>
    rw [List.foldl_cons]
    have hk' : akeys (addEdgeStep packages name er d).1 = akeys packages :=
      (addEdgeStep_keys packages name er d).1.trans hk
    rw [ih _ hk']
    unfold addEdgeStep
    by_cases hd : ahasKey packages d = true
    · rw [if_pos hd]
      show (b ∈ (alookup (mapAddTo er.1 name d) a).getD [] ∨ _) ↔ _
      rw [mem_getD_mapAddTo]
      have hn : name ∈ akeys er.1 := by rw [hk]; exact hname
      constructor
      · rintro ((h | ⟨rfl, _, rfl⟩) | ⟨rfl, hbs, hkb⟩)
        · exact Or.inl h
        · exact Or.inr ⟨rfl, by simp, hd⟩
        · exact Or.inr ⟨rfl, by simp [hbs], hkb⟩
      · rintro (h | ⟨rfl, hb, hkb⟩)
        · exact Or.inl (Or.inl h)
        · rcases List.mem_cons.mp hb with rfl | hbs
          · exact Or.inl (Or.inr ⟨rfl, hn, rfl⟩)
          · exact Or.inr ⟨rfl, hbs, hkb⟩
    · rw [if_neg hd]
      constructor
      · rintro (h | ⟨rfl, hbs, hkb⟩)
        · exact Or.inl h
        · exact Or.inr ⟨rfl, by simp [hbs], hkb⟩
      · rintro (h | ⟨rfl, hb, hkb⟩)
        · exact Or.inl h
        · rcases List.mem_cons.mp hb with rfl | hbs
          · exact absurd hkb hd
          · exact Or.inr ⟨rfl, hbs, hkb⟩

theorem inner_fold_rev_mem (packages : List (String × PackageInfo))
    (name : String) (deps : List String) (er : EdgePair) (y q : String)
    (hk : akeys er.2 = akeys packages) :
    y ∈ (alookup (deps.foldl (addEdgeStep packages name) er).2 q).getD [] ↔
      y ∈ (alookup er.2 q).getD [] ∨
        (y = name ∧ q ∈ deps ∧ ahasKey packages q = true) := by
  induction deps generalizing er with
  | nil => simp
  | cons d ds ih =>
    rw [List.foldl_cons]
    have hk' : akeys (addEdgeStep packages name er d).2 = akeys packages :=
      (addEdgeStep_keys packages name er d).2.trans hk
    rw [ih _ hk']
    unfold addEdgeStep
    by_cases hd : ahasKey packages d = true
    · rw [if_pos hd]
      show (y ∈ (alookup (mapAddTo er.2 d name) q).getD [] ∨ _) ↔ _
      rw [mem_getD_mapAddTo]
      have hdk : d ∈ akeys er.2 := by rw [hk]; exact ahasKey_iff.mp hd
      constructor
      · rintro ((h | ⟨rfl, _, rfl⟩) | ⟨rfl, hqs, hkq⟩)
        · exact Or.inl h
        · exact Or.inr ⟨rfl, by simp, hd⟩
        · exact Or.inr ⟨rfl, by simp [hqs], hkq⟩
      · rintro (h | ⟨rfl, hq, hkq⟩)
        · exact Or.inl (Or.inl h)
        · rcases List.mem_cons.mp hq with rfl | hqs
          · exact Or.inl (Or.inr ⟨rfl, hdk, rfl⟩)
          · exact Or.inr ⟨rfl, hqs, hkq⟩
    · rw [if_neg hd]
      constructor
      · rintro (h | ⟨rfl, hqs, hkq⟩)
        · exact Or.inl h
        · exact Or.inr ⟨rfl, by simp [hqs], hkq⟩
      · rintro (h | ⟨rfl, hq, hkq⟩)
        · exact Or.inl h
        · rcases List.mem_cons.mp hq with rfl | hqs
          · exact absurd hkq hd
          · exact Or.inr ⟨rfl, hqs, hkq⟩

theorem outer_fold_mem (packages : List (String × PackageInfo))
    (entries : List (String × PackageInfo)) (er : EdgePair)
    (hk1 : akeys er.1 = akeys packages) (hk2 : akeys er.2 = akeys packages)
    (hent : ∀ e ∈ entries, e.1 ∈ akeys packages) (a b : String) :
    (b ∈ (alookup (entries.foldl (addPackageEdges packages) er).1 a).getD [] ↔
      b ∈ (alookup er.1 a).getD [] ∨
        ∃ pkg, (a, pkg) ∈ entries ∧ b ∈ pkg.workspaceDeps ∧
          ahasKey packages b = true) ∧
    (a ∈ (alookup (entries.foldl (addPackageEdges packages) er).2 b).getD [] ↔
      a ∈ (alookup er.2 b).getD [] ∨
        ∃ pkg, (a, pkg) ∈ entries ∧ b ∈ pkg.workspaceDeps ∧
          ahasKey packages b = true) := by
  induction entries generalizing er with
  | nil => simp
  | cons e es ih =>
    obtain ⟨n, pkg⟩ := e
    rw [List.foldl_cons]
    have hname : n ∈ akeys packages := hent (n, pkg) (by simp)
    have hk1' : akeys (addPackageEdges packages er (n, pkg)).1 = akeys packages :=
      (inner_fold_keys packages n pkg.workspaceDeps er).1.trans hk1
    have hk2' : akeys (addPackageEdges packages er (n, pkg)).2 = akeys packages :=
      (inner_fold_keys packages n pkg.workspaceDeps er).2.trans hk2
    have hent' : ∀ x ∈ es, x.1 ∈ akeys packages :=
      fun x hx => hent x (List.mem_cons_of_mem _ hx)
    rcases ih _ hk1' hk2' hent' with ⟨ihE, ihR⟩
    constructor
    · rw [ihE]
      rw [show (addPackageEdges packages er (n, pkg)).1
            = (pkg.workspaceDeps.foldl (addEdgeStep packages n) er).1 from rfl]
      rw [inner_fold_edges_mem packages n pkg.workspaceDeps er a b hk1 hname]
      constructor
      · rintro ((h | ⟨rfl, hb, hkb⟩) | ⟨pkg', hm, hb, hkb⟩)
        · exact Or.inl h
        · exact Or.inr ⟨pkg, by simp, hb, hkb⟩
        · exact Or.inr ⟨pkg', List.mem_cons_of_mem _ hm, hb, hkb⟩
      · rintro (h | ⟨pkg', hm, hb, hkb⟩)
        · exact Or.inl (Or.inl h)
        · rcases List.mem_cons.mp hm with heq | hm'
          · cases heq
            exact Or.inl (Or.inr ⟨rfl, hb, hkb⟩)
          · exact Or.inr ⟨pkg', hm', hb, hkb⟩
    · rw [ihR]
      rw [show (addPackageEdges packages er (n, pkg)).2
            = (pkg.workspaceDeps.foldl (addEdgeStep packages n) er).2 from rfl]
      rw [inner_fold_rev_mem packages n pkg.workspaceDeps er a b hk2]
      constructor
      · rintro ((h | ⟨rfl, hb, hkb⟩) | ⟨pkg', hm, hb, hkb⟩)
        · exact Or.inl h
        · exact Or.inr ⟨pkg, by simp, hb, hkb⟩
        · exact Or.inr ⟨pkg', List.mem_cons_of_mem _ hm, hb, hkb⟩
      · rintro (h | ⟨pkg', hm, hb, hkb⟩)
        · exact Or.inl (Or.inl h)
        · rcases List.mem_cons.mp hm with heq | hm'
          · cases heq
            exact Or.inl (Or.inr ⟨rfl, hb, hkb⟩)
          · exact Or.inr ⟨pkg', hm', hb, hkb⟩

theorem akeys_init (ps : List (String × PackageInfo)) :
    akeys (ps.map (fun e => (e.1, ([] : List String)))) = akeys ps := by
  unfold akeys
  rw [List.map_map]
  rfl

theorem alookup_init_getD (ps : List (String × PackageInfo)) (a : String) :
    (alookup (ps.map (fun e => (e.1, ([] : List String)))) a).getD [] = [] := by
  induction ps with
  | nil => rfl
  | cons e t ih =>
    rw [List.map_cons, alookup]
    split
    · rfl
    · exact ih

theorem mem_edgesOf_build (ps : List (String × PackageInfo)) (a b : String) :
    b ∈ edgesOf (buildDependencyGraph ps) a ↔
      ∃ pkg, (a, pkg) ∈ ps ∧ b ∈ pkg.workspaceDeps ∧ ahasKey ps b = true := by
  have h := (outer_fold_mem ps ps
    (ps.map (fun e => (e.1, ([] : List String))),
     ps.map (fun e => (e.1, ([] : List String))))
    (akeys_init ps) (akeys_init ps)
    (fun e he => List.mem_map.mpr ⟨e, he, rfl⟩) a b).1
  rw [show edgesOf (buildDependencyGraph ps) a
        = (alookup (ps.foldl (addPackageEdges ps)
            (ps.map (fun e => (e.1, ([] : List String))),
             ps.map (fun e => (e.1, ([] : List String))))).1 a).getD [] from rfl]
  rw [h, alookup_init_getD]
  simp

theorem mem_revEdgesOf_build (ps : List (String × PackageInfo)) (a b : String) :
    a ∈ revEdgesOf (buildDependencyGraph ps) b ↔
      ∃ pkg, (a, pkg) ∈ ps ∧ b ∈ pkg.workspaceDeps ∧ ahasKey ps b = true := by
  have h := (outer_fold_mem ps ps
    (ps.map (fun e => (e.1, ([] : List String))),
     ps.map (fun e => (e.1, ([] : List String))))
    (akeys_init ps) (akeys_init ps)
    (fun e he => List.mem_map.mpr ⟨e, he, rfl⟩) a b).2
  rw [show revEdgesOf (buildDependencyGraph ps) b
        = (alookup (ps.foldl (addPackageEdges ps)
            (ps.map (fun e => (e.1, ([] : List String))),
             ps.map (fun e => (e.1, ([] : List String))))).2 b).getD [] from rfl]
  rw [h, alookup_init_getD]
  simp

/-- C7: `buildDependencyGraph` keeps the input as its node map; it has a
forward edge `a → b` exactly when package `a` declares dependency `b` and
`b` is itself a key of the input set (out-of-set dependencies are dropped
silently); the forward and reverse adjacency maps are exact transposes;
every name in either map's value sets is a node key; and the empty input
yields the empty graph. -/
theorem buildDependencyGraph_spec (ps : List (String × PackageInfo))
    (h : (akeys ps).Nodup) :
    ((buildDependencyGraph ps).nodes = ps) ∧
    (∀ a b, b ∈ edgesOf (buildDependencyGraph ps) a ↔
      ∃ pkg, alookup ps a = some pkg ∧ b ∈ pkg.workspaceDeps ∧ b ∈ akeys ps) ∧
    (∀ a b, b ∈ edgesOf (buildDependencyGraph ps) a ↔
      a ∈ revEdgesOf (buildDependencyGraph ps) b) ∧
    (∀ a b, b ∈ edgesOf (buildDependencyGraph ps) a →
      a ∈ graphKeys (buildDependencyGraph ps) ∧
      b ∈ graphKeys (buildDependencyGraph ps)) ∧
    (∀ a b, a ∈ revEdgesOf (buildDependencyGraph ps) b →
      a ∈ graphKeys (buildDependencyGraph ps) ∧
      b ∈ graphKeys (buildDependencyGraph ps)) ∧
    buildDependencyGraph [] = ⟨[], [], []⟩ := by
  have hkeys : graphKeys (buildDependencyGraph ps) = akeys ps := rfl
  refine ⟨rfl, ?_, ?_, ?_, ?_, rfl⟩
  · intro a b
    rw [mem_edgesOf_build]
    constructor
    · rintro ⟨pkg, hm, hb, hkb⟩
      exact ⟨pkg, alookup_of_mem_nodup h hm, hb, ahasKey_iff.mp hkb⟩
    · rintro ⟨pkg, hm, hb, hkb⟩
      exact ⟨pkg, alookup_mem hm, hb, ahasKey_iff.mpr hkb⟩
  · intro a b
    rw [mem_edgesOf_build, mem_revEdgesOf_build]
  · intro a b hb
    rcases (mem_edgesOf_build ps a b).mp hb with ⟨pkg, hm, _, hkb⟩
    exact ⟨mem_akeys.mpr ⟨pkg, hm⟩, ahasKey_iff.mp hkb⟩
  · intro a b hb
    rcases (mem_revEdgesOf_build ps a b).mp hb with ⟨pkg, hm, _, hkb⟩
    exact ⟨mem_akeys.mpr ⟨pkg, hm⟩, ahasKey_iff.mp hkb⟩

/-- C7 witness: the characterisation instantiated on a concrete two-package
workspace. -/
theorem buildDependencyGraph_spec_witness :
    "a" ∈ edgesOf (buildDependencyGraph
        [("a", mkPkg "a" []), ("b", mkPkg "b" ["a"])]) "b" ↔
      ∃ pkg, alookup [("a", mkPkg "a" []), ("b", mkPkg "b" ["a"])] "b" = some pkg ∧
        "a" ∈ pkg.workspaceDeps ∧
        "a" ∈ akeys [("a", mkPkg "a" []), ("b", mkPkg "b" ["a"])] :=
  (buildDependencyGraph_spec
    [("a", mkPkg "a" []), ("b", mkPkg "b" ["a"])] (by decide)).2.1 "b" "a"

/-! ### `collectDependencies` (Claims C8 and C10) -/

theorem collectRec_subset (all : List (String × PackageInfo)) :
    ∀ (fuel : Nat) (dep : String)
      (st : List String × List (String × PackageInfo)),
      ∀ e ∈ (collectRec all fuel dep st).2,
        e ∈ st.2 ∨ DepReaches all dep e.1 := by
  intro fuel
  induction fuel with
  | zero =>
    intro dep st e he
    exact Or.inl he
  | succ fuel ih =>
    intro dep st e he
    obtain ⟨vis, res⟩ := st
    by_cases hv : dep ∈ vis
    · rw [collectRec, if_pos hv] at he
      exact Or.inl he
    · rw [collectRec, if_neg hv] at he
      cases hl : alookup all dep with
      | none =>
        rw [hl] at he
        exact Or.inl he
      | some pkg =>
        rw [hl] at he
        have hfold : ∀ (deps : List String)
            (st0 : List String × List (String × PackageInfo)),
            ∀ e ∈ (deps.foldl (fun st t => collectRec all fuel t st) st0).2,
              e ∈ st0.2 ∨ ∃ t ∈ deps, DepReaches all t e.1 := by
          intro deps
          induction deps with
          | nil =>
            intro st0 e he
            exact Or.inl he
          | cons d ds ihd =>
            intro st0 e he
            rw [List.foldl_cons] at he
            rcases ihd _ e he with h | ⟨t, ht, hr⟩
            · rcases ih d st0 e h with h' | hr
              · exact Or.inl h'
              · exact Or.inr ⟨d, by simp, hr⟩
            · exact Or.inr ⟨t, by simp [ht], hr⟩
        rcases hfold pkg.workspaceDeps _ e he with h | ⟨t, ht, hr⟩
        · rcases List.mem_append.mp h with h' | h'
          · exact Or.inl h'
          · have : e = (dep, pkg) := by simpa using h'
            subst this
            exact Or.inr (DepReaches.refl dep)
        · exact Or.inr (DepReaches.step pkg t hl ht hr)

theorem collectFold_subset (all : List (String × PackageInfo)) (fuel : Nat)
    (deps : List String)
    (st0 : List String × List (String × PackageInfo)) :
    ∀ e ∈ (deps.foldl (fun st t => collectRec all fuel t st) st0).2,
      e ∈ st0.2 ∨ ∃ t ∈ deps, DepReaches all t e.1 := by
  induction deps generalizing st0 with
  | nil =>
    intro e he
    exact Or.inl he
  | cons d ds ihd =>
    intro e he
    rw [List.foldl_cons] at he
    rcases ihd _ e he with h | ⟨t, ht, hr⟩
    · rcases collectRec_subset all fuel d st0 e h with h' | hr
      · exact Or.inl h'
      · exact Or.inr ⟨d, by simp, hr⟩
    · exact Or.inr ⟨t, by simp [ht], hr⟩

/-- C10 counterexample: in a two-package workspace where A and B depend on
each other, collecting from A returns a mapping that does contain the
starting package A itself as a key (nothing ever filters the start's own
name out when a cycle leads back to it). -/
theorem collectDependencies_cycle_start_cex :
    (mkPkg "A" ["B"]).name = "A" ∧
    "A" ∈ akeys (collectDependencies cycleAll (mkPkg "A" ["B"])) := by
  constructor
  · rfl
  · decide

/-- C10 (amended): the mapping returned by `collectDependencies` contains
the starting package's name only when some declared dependency transitively
reaches back to that name; in particular it never contains the start when
no dependency cycle leads back to it, and whenever the starting package
declares zero workspace dependencies the result is the empty mapping. -/
theorem collectDependencies_start_excluded
    (all : List (String × PackageInfo)) (start : PackageInfo)
    (h : ∀ d ∈ start.workspaceDeps, ¬ DepReaches all d start.name) :
    start.name ∉ akeys (collectDependencies all start) ∧
    (start.workspaceDeps = [] → collectDependencies all start = []) := by
  constructor
  · intro hmem
    unfold collectDependencies at hmem
    by_cases hd : start.workspaceDeps = []
    · rw [if_pos hd] at hmem
      simp [akeys] at hmem
    · rw [if_neg hd] at hmem
      rcases mem_akeys.mp hmem with ⟨pkg, hpkg⟩
      rcases collectFold_subset all (all.length + 1) start.workspaceDeps
          ([], []) (start.name, pkg) hpkg with h' | ⟨t, ht, hr⟩
      · simp at h'
      · exact h t ht hr
  · intro hd
    unfold collectDependencies
    rw [if_pos hd]

theorem DepReaches_cases {all : List (String × PackageInfo)} {d n : String}
    (h : DepReaches all d n) :
    d = n ∨ ∃ pkg b, alookup all d = some pkg ∧ b ∈ pkg.workspaceDeps ∧
      DepReaches all b n := by
  cases h with
  | refl => exact Or.inl rfl
  | step pkg b hl hb hr => exact Or.inr ⟨pkg, b, hl, hb, hr⟩

/-- C10 witness: a start package whose single dependency B has no
dependencies of its own; B cannot reach back to A, so A is excluded, and a
start with no workspace dependencies yields the empty mapping. -/
theorem collectDependencies_start_excluded_witness :
    (mkPkg "A" ["B"]).name ∉
      akeys (collectDependencies [("B", mkPkg "B" [])] (mkPkg "A" ["B"])) ∧
    ((mkPkg "A" ["B"]).workspaceDeps = [] →
      collectDependencies [("B", mkPkg "B" [])] (mkPkg "A" ["B"]) = []) := by
  refine collectDependencies_start_excluded [("B", mkPkg "B" [])]
    (mkPkg "A" ["B"]) ?_
  intro d hd hr
  have hdB : d = "B" := by simpa [mkPkg] using hd
  subst hdB
  rcases DepReaches_cases hr with heq | ⟨pkg, b, hl, hb, _⟩
  · exact absurd heq (by decide)
  · have hpkg : mkPkg "B" [] = pkg := by
      simpa [alookup] using hl
    cases hpkg
    simp [mkPkg] at hb

/-- C8: in the diamond workspace (A depends on B and C, B and C each depend
on D, E an unrelated workspace member), collecting from A returns D exactly
once — under either discovery order of A's dependencies — and the returned
mapping is exactly the transitive closure {B, C, D} of A's internal
dependencies, not the whole workspace (E is absent, and so is A itself);
and the scheduling pipeline on the collected set places D in a layer
strictly earlier than the layers of B and of C. -/
theorem diamond_collect_and_layers :
    ((akeys (collectDependencies diamondAll (mkPkg "A" ["B", "C"]))).count "D" = 1 ∧
     "B" ∈ akeys (collectDependencies diamondAll (mkPkg "A" ["B", "C"])) ∧
     "C" ∈ akeys (collectDependencies diamondAll (mkPkg "A" ["B", "C"])) ∧
     "D" ∈ akeys (collectDependencies diamondAll (mkPkg "A" ["B", "C"])) ∧
     "E" ∉ akeys (collectDependencies diamondAll (mkPkg "A" ["B", "C"])) ∧
     "A" ∉ akeys (collectDependencies diamondAll (mkPkg "A" ["B", "C"])) ∧
     (akeys (collectDependencies diamondAll (mkPkg "A" ["B", "C"]))).length = 3) ∧
    ((akeys (collectDependencies diamondAllRev (mkPkg "A" ["C", "B"]))).count "D" = 1 ∧
     "B" ∈ akeys (collectDependencies diamondAllRev (mkPkg "A" ["C", "B"])) ∧
     "C" ∈ akeys (collectDependencies diamondAllRev (mkPkg "A" ["C", "B"])) ∧
     "D" ∈ akeys (collectDependencies diamondAllRev (mkPkg "A" ["C", "B"])) ∧
     "E" ∉ akeys (collectDependencies diamondAllRev (mkPkg "A" ["C", "B"])) ∧
     (akeys (collectDependencies diamondAllRev (mkPkg "A" ["C", "B"]))).length = 3) ∧
    (∃ ls, layersOf (buildDependencyGraph
        (collectDependencies diamondAll (mkPkg "A" ["B", "C"]))) = .ok ls ∧
      layerIndexIn ls "D" < layerIndexIn ls "B" ∧
      layerIndexIn ls "D" < layerIndexIn ls "C" ∧
      "D" ∈ ls.getD (layerIndexIn ls "D") [] ∧
      "B" ∈ ls.getD (layerIndexIn ls "B") [] ∧
      "C" ∈ ls.getD (layerIndexIn ls "C") []) ∧
    (∃ ls, layersOf (buildDependencyGraph
        (collectDependencies diamondAllRev (mkPkg "A" ["C", "B"]))) = .ok ls ∧
      layerIndexIn ls "D" < layerIndexIn ls "B" ∧
      layerIndexIn ls "D" < layerIndexIn ls "C" ∧
      "D" ∈ ls.getD (layerIndexIn ls "D") [] ∧
      "B" ∈ ls.getD (layerIndexIn ls "B") [] ∧
      "C" ∈ ls.getD (layerIndexIn ls "C") []) := by
  refine ⟨by decide, by decide,
    ⟨[["D"], ["B", "C"]], rfl, by decide, by decide, by decide, by decide, by decide⟩,
    ⟨[["D"], ["C", "B"]], rfl, by decide, by decide, by decide, by decide, by decide⟩⟩

/-! ### Claim C4 — the concurrency limit -/

/-- C4: the concurrency bound is violated. With limit 1 and three items,
the following schedule is reachable: item 0 is launched (1 in flight, the
loop suspends in `await Promise.race`); item 0 finishes while the loop is
suspended; item 1 is launched; every later `Promise.race` now resolves
immediately (the settled promise of item 0 is still in `executing`, since
the filter never removes settled promises), so item 2 is launched while
item 1 is still running: two build invocations in flight under limit 1. -/
theorem runWithConcurrency_exceeds_limit :
    ∃ c : ExecConfig,
      ExecReachable 1 ⟨[0, 1, 2], [], []⟩ c ∧ 1 < (inFlight c).length := by
  refine ⟨⟨[], [0, 1, 2], [0]⟩, ?_, by decide⟩
  have s1 : ExecStep 1 ⟨[0, 1, 2], [], []⟩ ⟨[1, 2], [0], []⟩ :=
    @ExecStep.launch 1 0 [1, 2] [] [] (Or.inl (by decide))
  have s2 : ExecStep 1 ⟨[1, 2], [0], []⟩ ⟨[1, 2], [0], [0]⟩ :=
    @ExecStep.finish 1 ⟨[1, 2], [0], []⟩ 0 (by decide) (by decide)
  have s3 : ExecStep 1 ⟨[1, 2], [0], [0]⟩ ⟨[2], [0, 1], [0]⟩ :=
    @ExecStep.launch 1 1 [2] [0] [0] (Or.inr (by decide))
  have s4 : ExecStep 1 ⟨[2], [0, 1], [0]⟩ ⟨[], [0, 1, 2], [0]⟩ :=
    @ExecStep.launch 1 2 [] [0, 1] [0] (Or.inr (by decide))
  exact Relation.ReflTransGen.head s1 (Relation.ReflTransGen.head s2
    (Relation.ReflTransGen.head s3 (Relation.ReflTransGen.single s4)))

/-! ### Claim C5 — build outcomes and failure reporting -/

/-- C5 counterexample: a buildable package whose build command fails. Under
`force` the package is attempted, and `buildPackage` produces no outcome at
all — it raises an error naming the package (there is no `failed` member of
the status union) — and a whole run over that one-package layer rejects
with that error, returning no per-package report. -/
theorem buildPackage_failure_cex :
    (mkPkg "a" []).buildScript.isSome = true ∧
    buildPackage (fun _ => ⟨false, [], []⟩) (fun _ => false)
      (mkPkg "a" []) ⟨true, none⟩ = .error "Build failed for a" ∧
    buildAllModel (fun _ => ⟨false, [], []⟩) (fun _ => false)
      [["a"]] [("a", mkPkg "a" [])] ⟨true, none⟩
      = .error "Build failed for a" :=
  ⟨rfl, rfl, rfl⟩

theorem exceptMap_error_iff {ε α β : Type} (f : α → β) (x : Except ε α)
    (e : ε) : x.map f = .error e ↔ x = .error e := by
  cases x <;> simp [Except.map]

theorem mapM_loop_error_iff {α β : Type} (f : α → Except String β)
    (l : List α) (acc : List β) :
    (∃ e, List.mapM.loop f l acc = .error e) ↔
      ∃ a ∈ l, ∃ e, f a = .error e := by
  induction l generalizing acc with
  | nil =>
    simp [List.mapM.loop, pure, Except.pure]
  | cons a t ih =>
    rw [List.mapM.loop]
    cases hf : f a with
    | error e =>
      constructor
      · intro _
        exact ⟨a, by simp, e, hf⟩
      · intro _
        exact ⟨e, by simp [hf, Bind.bind, Except.bind]⟩
    | ok b =>
      show (∃ e, List.mapM.loop f t (b :: acc) = Except.error e) ↔ _
      rw [ih]
      constructor
      · rintro ⟨x, hx, he⟩
        exact ⟨x, by simp [hx], he⟩
      · rintro ⟨x, hx, he⟩
        rcases List.mem_cons.mp hx with rfl | hx'
        · rcases he with ⟨e, he⟩
          rw [hf] at he
          cases he
        · exact ⟨x, hx', he⟩

theorem mapM_error_iff {α β : Type} (f : α → Except String β) (l : List α) :
    (∃ e, l.mapM f = .error e) ↔ ∃ a ∈ l, ∃ e, f a = .error e := by
  rw [show l.mapM f = List.mapM.loop f l [] from rfl]
  exact mapM_loop_error_iff f l []

/-- C5 (amended): a package's per-run result is drawn from the three
statuses `built | skipped | unchanged` — there is no `failed` outcome.
`buildPackage` yields `skipped` without a build script, `unchanged` when
not forced and fresh, `built` on a successful run, and on a failed run it
yields no outcome but an error naming the package. The run as a whole ends
in failure exactly when some attempted package's build fails, and the
executor returns no per-package report (its value is `Unit`): outcomes of
packages other than the named failing one are not enumerated anywhere. -/
theorem buildOutcome_spec :
    (∀ s : BuildStatus, s = .built ∨ s = .skipped ∨ s = .unchanged) ∧
    (∀ (env : String → PkgFs) (runOk : String → Bool) (pkg : PackageInfo)
        (opts : BuildOptions), pkg.buildScript = none →
      buildPackage env runOk pkg opts = .ok ⟨pkg.name, .skipped⟩) ∧
    (∀ (env : String → PkgFs) (runOk : String → Bool) (pkg : PackageInfo)
        (opts : BuildOptions), pkg.buildScript.isSome = true →
      opts.force = false → needsBuild (env pkg.path) = false →
      buildPackage env runOk pkg opts = .ok ⟨pkg.name, .unchanged⟩) ∧
    (∀ (env : String → PkgFs) (runOk : String → Bool) (pkg : PackageInfo)
        (opts : BuildOptions), pkg.buildScript.isSome = true →
      (opts.force = true ∨ needsBuild (env pkg.path) = true) →
      runOk pkg.path = true →
      buildPackage env runOk pkg opts = .ok ⟨pkg.name, .built⟩) ∧
    (∀ (env : String → PkgFs) (runOk : String → Bool) (pkg : PackageInfo)
        (opts : BuildOptions), pkg.buildScript.isSome = true →
      (opts.force = true ∨ needsBuild (env pkg.path) = true) →
      runOk pkg.path = false →
      buildPackage env runOk pkg opts = .error ("Build failed for " ++ pkg.name)) ∧
    (∀ (env : String → PkgFs) (runOk : String → Bool) (layers : List (List String))
        (packages : List (String × PackageInfo)) (opts : BuildOptions),
      (∃ e, buildAllModel env runOk layers packages opts = .error e) ↔
        ∃ layer ∈ layers,
          ∃ p ∈ (layer.filterMap (alookup packages)).filter
              (fun p => p.buildScript.isSome),
            ∃ e, buildPackage env runOk p opts = .error e) := by
  refine ⟨?_, ?_, ?_, ?_, ?_, ?_⟩
  · intro s
    cases s
    · exact Or.inl rfl
    · exact Or.inr (Or.inl rfl)
    · exact Or.inr (Or.inr rfl)
  · intro env runOk pkg opts h
    unfold buildPackage
    rw [h]
  · intro env runOk pkg opts h hf hn
    unfold buildPackage
    rcases Option.isSome_iff_exists.mp h with ⟨s, hs⟩
    rw [hs]
    simp [hf, hn]
  · intro env runOk pkg opts h hforce hrun
    unfold buildPackage
    rcases Option.isSome_iff_exists.mp h with ⟨s, hs⟩
    rw [hs]
    rcases hforce with hf | hn
    · simp [hf, hrun]
    · by_cases hfo : opts.force <;> simp [hfo, hn, hrun]
  · intro env runOk pkg opts h hforce hrun
    unfold buildPackage
    rcases Option.isSome_iff_exists.mp h with ⟨s, hs⟩
    rw [hs]
    rcases hforce with hf | hn
    · simp [hf, hrun]
    · by_cases hfo : opts.force <;> simp [hfo, hn, hrun]
  · intro env runOk layers packages opts
    unfold buildAllModel
    constructor
    · rintro ⟨e, he⟩
      rw [exceptMap_error_iff] at he
      rcases (mapM_error_iff _ layers).mp ⟨e, he⟩ with ⟨layer, hl, e', he'⟩
      rcases (mapM_error_iff _ _).mp ⟨e', he'⟩ with ⟨p, hp, e'', he''⟩
      exact ⟨layer, hl, p, hp, e'', he''⟩
    · rintro ⟨layer, hl, p, hp, e, he⟩
      rcases (mapM_error_iff
          (fun (layer : List String) =>
            ((layer.filterMap (alookup packages)).filter
                (fun p => p.buildScript.isSome)).mapM
              (fun p => buildPackage env runOk p opts)) layers).mpr
          ⟨layer, hl, (mapM_error_iff _ _).mpr ⟨p, hp, e, he⟩⟩ with ⟨e', he'⟩
      exact ⟨e', (exceptMap_error_iff _ _ _).mpr he'⟩

/-- C5 witness: each `buildPackage` case at a concrete input, and a
concrete failing run. -/
theorem buildOutcome_spec_witness :
    buildPackage (fun _ => ⟨false, [], []⟩) (fun _ => true)
      (mkPlainPkg "p" []) ⟨false, none⟩ = .ok ⟨"p", .skipped⟩ ∧
    buildPackage (fun _ => ⟨true, [3], [5]⟩) (fun _ => true)
      (mkPkg "q" []) ⟨false, none⟩ = .ok ⟨"q", .unchanged⟩ ∧
    buildPackage (fun _ => ⟨false, [], []⟩) (fun _ => true)
      (mkPkg "r" []) ⟨false, none⟩ = .ok ⟨"r", .built⟩ ∧
    buildPackage (fun _ => ⟨false, [], []⟩) (fun _ => false)
      (mkPkg "s" []) ⟨false, none⟩ = .error ("Build failed for " ++ "s") ∧
    (∃ e, buildAllModel (fun _ => ⟨false, [], []⟩) (fun _ => false)
      [["s"]] [("s", mkPkg "s" [])] ⟨false, none⟩ = .error e) :=
  ⟨buildOutcome_spec.2.1 _ _ (mkPlainPkg "p" []) ⟨false, none⟩ rfl,
   buildOutcome_spec.2.2.1 _ _ (mkPkg "q" []) ⟨false, none⟩ rfl rfl (by decide),
   buildOutcome_spec.2.2.2.1 _ _ (mkPkg "r" []) ⟨false, none⟩ rfl
     (Or.inr (by decide)) rfl,
   buildOutcome_spec.2.2.2.2.1 _ _ (mkPkg "s" []) ⟨false, none⟩ rfl
     (Or.inr (by decide)) rfl,
   (buildOutcome_spec.2.2.2.2.2 _ _ [["s"]] [("s", mkPkg "s" [])]
      ⟨false, none⟩).mpr
     ⟨["s"], by simp, mkPkg "s" [], by decide,
      "Build failed for s",
      buildOutcome_spec.2.2.2.2.1 _ _ (mkPkg "s" []) ⟨false, none⟩ rfl
        (Or.inr (by decide)) rfl⟩⟩

/-! ### Kahn's algorithm (Claim C1) -/

theorem aset_cons (k' : String) (v' : Int) (t : List (String × Int))
    (k : String) (v : Int) :
    aset ((k', v') :: t) k v
      = (if k' = k then (k', v) else (k', v')) :: aset t k v := by
  rfl

theorem akeys_aset (m : List (String × Int)) (k : String) (v : Int) :
    akeys (aset m k v) = akeys m := by
  unfold akeys aset
  rw [List.map_map]
  apply List.map_congr_left
  intro e _
  by_cases h : e.1 = k <;> simp [h]

theorem alookup_aset_self (m : List (String × Int)) (k : String) (v : Int) :
    alookup (aset m k v) k = (alookup m k).map (fun _ => v) := by
  induction m with
  | nil => rfl
  | cons e t ih =>
    obtain ⟨k', v'⟩ := e
    rw [aset_cons]
    by_cases h : k' = k
    · rw [if_pos h]
      simp [alookup, h]
    · rw [if_neg h]
      simp [alookup, h, ih]

theorem alookup_aset_ne (m : List (String × Int)) {k a : String} (v : Int)
    (h : a ≠ k) : alookup (aset m k v) a = alookup m a := by
  induction m with
  | nil => rfl
  | cons e t ih =>
    obtain ⟨k', v'⟩ := e
    rw [aset_cons]
    by_cases hk : k' = k
    · rw [if_pos hk]
      have hka : ¬ (k' = a) := by
        rw [hk]; exact fun hh => h hh.symm
      simp [alookup, hka, ih]
    · rw [if_neg hk]
      by_cases hka : k' = a
      · simp [alookup, hka]
      · simp [alookup, hka, ih]

/-- Characterisation of `decrementDeps` on a duplicate-free dependent list:
keys are unchanged, every listed dependent's count drops by one, and the
collected zeros are exactly the dependents whose stored count was 1. -/
theorem decrementDeps_spec (inDeg : List (String × Int)) (ds : List String)
    (hnd : ds.Nodup) :
    akeys (decrementDeps inDeg ds).1 = akeys inDeg ∧
    (∀ n, alookup (decrementDeps inDeg ds).1 n =
      if n ∈ ds then (alookup inDeg n).map (fun v => v - 1)
      else alookup inDeg n) ∧
    (decrementDeps inDeg ds).2
      = ds.filter (fun d => decide (alookup inDeg d = some 1)) := by
  have main : ∀ (ds : List String) (m : List (String × Int)) (zs : List String),
      ds.Nodup →
      akeys (ds.foldl
        (fun st d =>
          match alookup st.1 d with
          | none => st
          | some v =>
            (aset st.1 d (v - 1), if v - 1 = 0 then st.2 ++ [d] else st.2))
        (m, zs)).1 = akeys m ∧
      (∀ n, alookup (ds.foldl
        (fun st d =>
          match alookup st.1 d with
          | none => st
          | some v =>
            (aset st.1 d (v - 1), if v - 1 = 0 then st.2 ++ [d] else st.2))
        (m, zs)).1 n =
        if n ∈ ds then (alookup m n).map (fun v => v - 1) else alookup m n) ∧
      (ds.foldl
        (fun st d =>
          match alookup st.1 d with
          | none => st
          | some v =>
            (aset st.1 d (v - 1), if v - 1 = 0 then st.2 ++ [d] else st.2))
        (m, zs)).2
        = zs ++ ds.filter (fun d => decide (alookup m d = some 1)) := by
    intro ds
    induction ds with
    | nil =>
      intro m zs _
      exact ⟨rfl, fun n => by simp, by simp⟩
    | cons d dt ih =>
      intro m zs hnd
      rw [List.nodup_cons] at hnd
      rw [List.foldl_cons]
      cases hl : alookup m d with
      | none =>
        rcases ih m zs hnd.2 with ⟨h1, h2, h3⟩
        refine ⟨h1, ?_, ?_⟩
        · intro n
          rw [h2 n]
          by_cases hn : n ∈ dt
          · simp [hn, List.mem_cons, Or.inr hn]
          · by_cases hnd' : n = d
            · subst hnd'
              simp [hn, hl]
            · simp [hn, hnd']
        · rw [h3, List.filter_cons]
          simp [hl]
      | some v =>
        rcases ih (aset m d (v - 1))
            (if v - 1 = 0 then zs ++ [d] else zs) hnd.2 with ⟨h1, h2, h3⟩
        refine ⟨?_, ?_, ?_⟩
        · rw [h1, akeys_aset]
        · intro n
          rw [h2 n]
          by_cases hn : n ∈ dt
          · have hnde : n ≠ d := fun hh => hnd.1 (hh ▸ hn)
            rw [alookup_aset_ne _ _ hnde]
            simp [hn, List.mem_cons, Or.inr hn]
          · by_cases hnd' : n = d
            · subst hnd'
              rw [alookup_aset_self]
              simp [hn, hl]
            · rw [alookup_aset_ne _ _ hnd']
              simp [hn, hnd']
        · rw [h3, List.filter_cons]
          have hkeys : ∀ x ∈ dt, alookup (aset m d (v - 1)) x = alookup m x :=
            fun x hx => alookup_aset_ne _ _ (fun hh => hnd.1 (hh ▸ hx))
          rw [List.filter_congr
            (fun x hx => by rw [hkeys x hx])]
          by_cases hz : v - 1 = 0
          · have hv : v = 1 := by omega
            subst hv
            simp [hl]
          · have hv : ¬ (v = 1) := by omega
            have : ¬ (alookup m d = some 1) := by
              rw [hl]
              simp [hv]
            simp [hz, this]
  exact main ds inDeg [] hnd

/-! ### Well-formedness accessors -/

theorem wf_keys_nodup {g : DependencyGraph} (h : WellFormed g) :
    (graphKeys g).Nodup := h.1

theorem wf_edges_nodup {g : DependencyGraph} (h : WellFormed g) {n : String}
    (hn : n ∈ graphKeys g) : (edgesOf g n).Nodup := (h.2.2.2.1 n hn).1

theorem wf_edges_sub {g : DependencyGraph} (h : WellFormed g) {n : String}
    (hn : n ∈ graphKeys g) {d : String} (hd : d ∈ edgesOf g n) :
    d ∈ graphKeys g := (h.2.2.2.1 n hn).2 d hd

theorem wf_rev_nodup {g : DependencyGraph} (h : WellFormed g) {n : String}
    (hn : n ∈ graphKeys g) : (revEdgesOf g n).Nodup := (h.2.2.2.2.1 n hn).1

theorem wf_rev_sub {g : DependencyGraph} (h : WellFormed g) {n : String}
    (hn : n ∈ graphKeys g) {d : String} (hd : d ∈ revEdgesOf g n) :
    d ∈ graphKeys g := (h.2.2.2.2.1 n hn).2 d hd

theorem wf_transpose {g : DependencyGraph} (h : WellFormed g) {a b : String}
    (ha : a ∈ graphKeys g) (hb : b ∈ graphKeys g) :
    b ∈ edgesOf g a ↔ a ∈ revEdgesOf g b := h.2.2.2.2.2 a ha b hb

theorem edgesOf_eq_nil_of_not_mem {g : DependencyGraph} (h : WellFormed g)
    {n : String} (hn : n ∉ graphKeys g) : edgesOf g n = [] := by
  unfold edgesOf
  cases hl : alookup g.edges n with
  | none => rfl
  | some s =>
    have : n ∈ akeys g.edges := alookup_isSome.mp (by rw [hl]; rfl)
    rw [h.2.1] at this
    exact absurd this hn

theorem edge_source_mem {g : DependencyGraph} (h : WellFormed g) {a b : String}
    (he : Edge g a b) : a ∈ graphKeys g := by
  by_contra hn
  rw [Edge, edgesOf_eq_nil_of_not_mem h hn] at he
  simp at he

theorem edge_target_mem {g : DependencyGraph} (h : WellFormed g) {a b : String}
    (he : Edge g a b) : b ∈ graphKeys g :=
  wf_edges_sub h (edge_source_mem h he) he

/-! ### List helpers for the Kahn invariant -/

theorem length_filter_ne {l : List String} (hn : l.Nodup) {x : String}
    (hx : x ∈ l) :
    (l.filter (fun d => decide (d ≠ x))).length + 1 = l.length := by
  have h1 : l.filter (fun d => decide (d ≠ x)) = l.erase x := by
    rw [List.Nodup.erase_eq_filter hn x]
    refine List.filter_congr (fun d _ => ?_)
    by_cases hdx : d = x <;> simp [bne, hdx]
  rw [h1, List.length_erase_of_mem hx]
  have := List.length_pos.mpr (List.ne_nil_of_mem hx)
  omega

theorem exists_mem_of_length_pos {l : List String} (h : 0 < l.length) :
    ∃ x, x ∈ l := by
  cases l with
  | nil => simp at h
  | cons a t => exact ⟨a, by simp⟩

theorem alookup_map_keyed {β : Type} (l : List (String × PackageInfo))
    (f : String → β) (n : String) :
    alookup (l.map (fun e => (e.1, f e.1))) n
      = if n ∈ akeys l then some (f n) else none := by
  induction l with
  | nil => simp [alookup, akeys]
  | cons e t ih =>
    rw [List.map_cons, alookup]
    by_cases he : e.1 = n
    · rw [if_pos he, he, if_pos (by
        rw [akeys, List.map_cons]
        exact List.mem_cons.mpr (Or.inl he.symm))]
    · rw [if_neg he, ih]
      by_cases hmem : n ∈ akeys t
      · rw [if_pos hmem, if_pos (by
          rw [akeys, List.map_cons]
          exact List.mem_cons.mpr (Or.inr hmem))]
      · rw [if_neg hmem, if_neg (by
          rw [akeys, List.map_cons]
          intro hc
          rcases List.mem_cons.mp hc with hh | hh
          · exact he hh.symm
          · exact hmem hh)]

theorem akeys_map_keyed {β : Type} (l : List (String × PackageInfo))
    (f : String → β) :
    akeys (l.map (fun e => (e.1, f e.1))) = akeys l := by
  unfold akeys
  rw [List.map_map]
  rfl

/-! ### The initial Kahn state -/

theorem initialInDegree_lookup (g : DependencyGraph) (n : String) :
    alookup (initialInDegree g) n
      = if n ∈ graphKeys g then some (((edgesOf g n).length : Int)) else none :=
  alookup_map_keyed g.nodes (fun m => ((edgesOf g m).length : Int)) n

theorem initial_queue_mem (g : DependencyGraph) (n : String) :
    (n ∈ ((initialInDegree g).filter (fun e => e.2 = 0)).map Prod.fst) ↔
      (n ∈ graphKeys g ∧ edgesOf g n = []) := by
  unfold initialInDegree
  constructor
  · intro h
    rcases List.mem_map.mp h with ⟨e, he, rfl⟩
    rcases List.mem_filter.mp he with ⟨hmem, hz⟩
    rcases List.mem_map.mp hmem with ⟨e', he', rfl⟩
    have hk : e'.1 ∈ graphKeys g := List.mem_map.mpr ⟨e', he', rfl⟩
    refine ⟨hk, ?_⟩
    have : ((edgesOf g e'.1).length : Int) = 0 := by simpa using hz
    have hlen : (edgesOf g e'.1).length = 0 := by exact_mod_cast this
    exact List.length_eq_zero.mp hlen
  · rintro ⟨hk, hnil⟩
    rcases mem_akeys.mp hk with ⟨pkg, hpkg⟩
    refine List.mem_map.mpr ⟨(n, ((edgesOf g n).length : Int)), ?_, rfl⟩
    refine List.mem_filter.mpr ⟨List.mem_map.mpr ⟨(n, pkg), hpkg, rfl⟩, ?_⟩
    simp [hnil]

theorem initial_queue_nodup {g : DependencyGraph} (h : WellFormed g) :
    (((initialInDegree g).filter (fun e => e.2 = 0)).map Prod.fst).Nodup := by
  have hsub : (((initialInDegree g).filter (fun e => e.2 = 0)).map
      Prod.fst).Sublist (akeys (initialInDegree g)) :=
    List.Sublist.map Prod.fst (List.filter_sublist _)
  have hkeys : akeys (initialInDegree g) = graphKeys g :=
    akeys_map_keyed g.nodes (fun m => ((edgesOf g m).length : Int))
  refine List.Nodup.sublist hsub ?_
  rw [show akeys (initialInDegree g) = graphKeys g from hkeys]
  exact wf_keys_nodup h

theorem kahnInv_init {g : DependencyGraph} (h : WellFormed g) :
    KahnInv g (initialInDegree g)
      (((initialInDegree g).filter (fun e => e.2 = 0)).map Prod.fst) [] := by
  refine ⟨akeys_map_keyed g.nodes (fun m => ((edgesOf g m).length : Int)),
    ?_, ?_, by simp, initial_queue_nodup h,
    List.nodup_nil, by simp, ?_, by simp, ?_⟩
  · intro n hn
    rw [initialInDegree_lookup, if_pos hn]
    congr 2
    rw [List.filter_eq_self.mpr (fun d _ => by simp)]
  · intro n hn
    exact ((initial_queue_mem g n).mp hn).1
  · intro n hn d hd
    rw [((initial_queue_mem g n).mp hn).2] at hd
    simp at hd
  · intro n hn hq _
    have : ¬ (n ∈ graphKeys g ∧ edgesOf g n = []) :=
      fun hc => hq ((initial_queue_mem g n).mpr hc)
    have hne : edgesOf g n ≠ [] := by
      intro hnil
      exact this ⟨hn, hnil⟩
    rcases exists_mem_of_length_pos (List.length_pos.mpr hne) with ⟨d, hd⟩
    exact ⟨d, hd, by simp⟩

/-- One iteration of the Kahn loop preserves the invariant. -/
theorem kahnInv_step {g : DependencyGraph} (hwf : WellFormed g)
    {inDeg : List (String × Int)} {current : String} {rest result : List String}
    (hinv : KahnInv g inDeg (current :: rest) result) :
    KahnInv g (decrementDeps inDeg (revEdgesOf g current)).1
      (rest ++ (decrementDeps inDeg (revEdgesOf g current)).2)
      (result ++ [current]) := by
  have hcurK : current ∈ graphKeys g := hinv.queueKeys current (by simp)
  have hcurR : current ∉ result := hinv.disj current (by simp)
  have hrestN : rest.Nodup ∧ current ∉ rest := by
    have := hinv.queueNodup
    rw [List.nodup_cons] at this
    exact ⟨this.2, this.1⟩
  have hdsnd : (revEdgesOf g current).Nodup := wf_rev_nodup hwf hcurK
  rcases decrementDeps_spec inDeg (revEdgesOf g current) hdsnd with
    ⟨hkeys, hlook, hzeros⟩
  have hds_iff : ∀ n ∈ graphKeys g,
      (n ∈ revEdgesOf g current ↔ current ∈ edgesOf g n) :=
    fun n hn => (wf_transpose hwf hn hcurK).symm
  have hff : ∀ n : String,
      (edgesOf g n).filter (fun d => decide (d ∉ (result ++ [current])))
        = ((edgesOf g n).filter (fun d => decide (d ∉ result))).filter
            (fun d => decide (d ≠ current)) := by
    intro n
    rw [List.filter_filter]
    refine List.filter_congr (fun d _ => ?_)
    by_cases h1 : d ∈ result <;> by_cases h2 : d = current <;>
      simp [h1, h2]
  have hcount_in : ∀ n ∈ graphKeys g, current ∈ edgesOf g n →
      ((edgesOf g n).filter
        (fun d => decide (d ∉ (result ++ [current])))).length + 1
        = ((edgesOf g n).filter (fun d => decide (d ∉ result))).length := by
    intro n hn hce
    rw [hff n]
    exact length_filter_ne (List.Nodup.filter _ (wf_edges_nodup hwf hn))
      (List.mem_filter.mpr ⟨hce, by simp [hcurR]⟩)
  have hcount_out : ∀ n : String, current ∉ edgesOf g n →
      (edgesOf g n).filter (fun d => decide (d ∉ (result ++ [current])))
        = (edgesOf g n).filter (fun d => decide (d ∉ result)) := by
    intro n hce
    rw [hff n]
    apply List.filter_eq_self.mpr
    intro d hd
    have : d ≠ current := fun hh => hce (hh ▸ List.mem_of_mem_filter hd)
    simp [this]
  have hq0 : ∀ a ∈ current :: rest, alookup inDeg a = some 0 := by
    intro a ha
    have hak := hinv.queueKeys a ha
    rw [hinv.degVal a hak]
    rw [List.filter_eq_nil_iff.mpr (fun d hd => by
      simp [hinv.queueReady a ha d hd])]
    rfl
  have hresClosed : ∀ a ∈ result, ∀ d ∈ edgesOf g a, d ∈ result := by
    intro a ha d hd
    rcases List.mem_iff_get.mp ha with ⟨⟨i, hi⟩, hget⟩
    rw [List.get_eq_getElem] at hget
    subst hget
    exact List.mem_of_mem_take (hinv.resOrdered i hi d hd)
  have hres0 : ∀ a ∈ result, a ∈ graphKeys g → alookup inDeg a = some 0 := by
    intro a ha hak
    rw [hinv.degVal a hak]
    rw [List.filter_eq_nil_iff.mpr (fun d hd => by
      simp [hresClosed a ha d hd])]
    rfl
  have hzero_mem : ∀ n ∈ (decrementDeps inDeg (revEdgesOf g current)).2,
      n ∈ revEdgesOf g current ∧ alookup inDeg n = some 1 := by
    intro n hn
    rw [hzeros] at hn
    rcases List.mem_filter.mp hn with ⟨h1, h2⟩
    exact ⟨h1, of_decide_eq_true h2⟩
  have hzeroK : ∀ n ∈ (decrementDeps inDeg (revEdgesOf g current)).2,
      n ∈ graphKeys g :=
    fun n hn => wf_rev_sub hwf hcurK (hzero_mem n hn).1
  refine ⟨hkeys.trans hinv.degKeys, ?_, ?_, ?_, ?_, ?_, ?_, ?_, ?_, ?_⟩
  · -- degVal
    intro n hn
    rw [hlook n]
    by_cases hnds : n ∈ revEdgesOf g current
    · rw [if_pos hnds, hinv.degVal n hn, Option.map_some']
      have hce : current ∈ edgesOf g n := (hds_iff n hn).mp hnds
      have hc := hcount_in n hn hce
      congr 1
      omega
    · rw [if_neg hnds, hinv.degVal n hn]
      have hce : current ∉ edgesOf g n :=
        fun hc => hnds ((hds_iff n hn).mpr hc)
      rw [hcount_out n hce]
  · -- queueKeys
    intro n hn
    rcases List.mem_append.mp hn with h | h
    · exact hinv.queueKeys n (List.mem_cons_of_mem _ h)
    · exact hzeroK n h
  · -- resKeys
    intro n hn
    rcases List.mem_append.mp hn with h | h
    · exact hinv.resKeys n h
    · rw [List.mem_singleton.mp h]
      exact hcurK
  · -- queueNodup
    rw [List.nodup_append]
    refine ⟨hrestN.1, ?_, ?_⟩
    · rw [hzeros]
      exact List.Nodup.filter _ hdsnd
    · intro a ha hz
      have h1 := (hzero_mem a hz).2
      have h0 := hq0 a (List.mem_cons_of_mem _ ha)
      rw [h0] at h1
      cases h1
  · -- resNodup
    rw [List.nodup_append]
    refine ⟨hinv.resNodup, List.nodup_singleton _, ?_⟩
    intro a ha hc
    rw [List.mem_singleton.mp hc] at ha
    exact hcurR ha
  · -- disj
    intro n hn hmem
    rcases List.mem_append.mp hmem with hr | hc
    · rcases List.mem_append.mp hn with h | h
      · exact hinv.disj n (List.mem_cons_of_mem _ h) hr
      · have h1 := (hzero_mem n h).2
        have h0 := hres0 n hr (hzeroK n h)
        rw [h0] at h1
        cases h1
    · rw [List.mem_singleton.mp hc] at hn
      rcases List.mem_append.mp hn with h | h
      · exact hrestN.2 h
      · have h1 := (hzero_mem current h).2
        have h0 := hq0 current (by simp)
        rw [h0] at h1
        cases h1
  · -- queueReady
    intro n hn d hd
    rcases List.mem_append.mp hn with h | h
    · exact List.mem_append.mpr
        (Or.inl (hinv.queueReady n (List.mem_cons_of_mem _ h) d hd))
    · rcases hzero_mem n h with ⟨hnds, hdeg1⟩
      have hnk := hzeroK n h
      have hce : current ∈ edgesOf g n := (hds_iff n hnk).mp hnds
      have hlen1 : ((edgesOf g n).filter
          (fun d => decide (d ∉ result))).length = 1 := by
        have := hinv.degVal n hnk
        rw [hdeg1] at this
        have h2 := (Option.some.injEq _ _).mp this.symm
        exact_mod_cast h2
      rcases List.length_eq_one.mp hlen1 with ⟨e, he⟩
      have hcur_mem : current ∈ (edgesOf g n).filter
          (fun d => decide (d ∉ result)) :=
        List.mem_filter.mpr ⟨hce, by simp [hcurR]⟩
      rw [he] at hcur_mem
      have hecur : e = current := (List.mem_singleton.mp hcur_mem).symm
      by_cases hdr : d ∈ result
      · exact List.mem_append.mpr (Or.inl hdr)
      · have : d ∈ (edgesOf g n).filter (fun d => decide (d ∉ result)) :=
          List.mem_filter.mpr ⟨hd, by simp [hdr]⟩
        rw [he] at this
        rw [List.mem_singleton.mp this, hecur]
        exact List.mem_append.mpr (Or.inr (by simp))
  · -- resOrdered
    intro i hlen d hd
    have hlen' : i < result.length + 1 := by simpa using hlen
    by_cases hi : i < result.length
    · rw [List.getElem_append_left hi] at hd
      rw [List.take_append_of_le_length (le_of_lt hi)]
      exact hinv.resOrdered i hi d hd
    · have hieq : i = result.length := by omega
      rw [List.getElem_concat_length _ _ _ hieq] at hd
      have : d ∈ result := hinv.queueReady current (by simp) d hd
      rw [hieq, List.take_left]
      exact this
  · -- resComplete
    intro n hn hq hr
    have hncur : n ≠ current := by
      intro hh
      exact hr (List.mem_append.mpr (Or.inr (by simp [hh])))
    have hnres : n ∉ result :=
      fun hc => hr (List.mem_append.mpr (Or.inl hc))
    have hnq : n ∉ current :: rest := by
      intro hc
      rcases List.mem_cons.mp hc with hh | hh
      · exact hncur hh
      · exact hq (List.mem_append.mpr (Or.inl hh))
    rcases hinv.resComplete n hn hnq hnres with ⟨d, hd, hdr⟩
    by_cases hnds : n ∈ revEdgesOf g current
    · have hnz : n ∉ (decrementDeps inDeg (revEdgesOf g current)).2 :=
        fun hc => hq (List.mem_append.mpr (Or.inr hc))
      have hnot1 : alookup inDeg n ≠ some 1 := by
        intro hc
        exact hnz (by
          rw [hzeros]
          exact List.mem_filter.mpr ⟨hnds, by simp [hc]⟩)
      have hlenpos : 0 < ((edgesOf g n).filter
          (fun d => decide (d ∉ result))).length := by
        have : d ∈ (edgesOf g n).filter (fun d => decide (d ∉ result)) :=
          List.mem_filter.mpr ⟨hd, by simp [hdr]⟩
        exact List.length_pos.mpr (List.ne_nil_of_mem this)
      have hlenne1 : ((edgesOf g n).filter
          (fun d => decide (d ∉ result))).length ≠ 1 := by
        intro hc
        apply hnot1
        rw [hinv.degVal n hn, hc]
        rfl
      have hce : current ∈ edgesOf g n := (hds_iff n hn).mp hnds
      have hcnt := hcount_in n hn hce
      have hnewpos : 0 < ((edgesOf g n).filter
          (fun d => decide (d ∉ (result ++ [current])))).length := by omega
      rcases exists_mem_of_length_pos hnewpos with ⟨d', hd'⟩
      rcases List.mem_filter.mp hd' with ⟨hd'e, hd'p⟩
      exact ⟨d', hd'e, of_decide_eq_true hd'p⟩
    · have hce : current ∉ edgesOf g n :=
        fun hc => hnds ((hds_iff n hn).mpr hc)
      refine ⟨d, hd, ?_⟩
      intro hc
      rcases List.mem_append.mp hc with h | h
      · exact hdr h
      · rw [List.mem_singleton.mp h] at hd
        exact hce hd

/-- Running the Kahn loop from an invariant state with sufficient fuel
yields a duplicate-free, dependency-ordered list of node names such that
every node left out still has an unprocessed dependency. -/
theorem kahnLoop_spec {g : DependencyGraph} (hwf : WellFormed g) :
    ∀ (fuel : Nat) (inDeg : List (String × Int)) (queue result : List String),
      KahnInv g inDeg queue result →
      (graphKeys g).length + 1 ≤ fuel + result.length →
      (kahnLoop g fuel inDeg queue result).Nodup ∧
      (∀ n ∈ kahnLoop g fuel inDeg queue result, n ∈ graphKeys g) ∧
      (∀ (i : Nat) (h : i < (kahnLoop g fuel inDeg queue result).length),
        ∀ d ∈ edgesOf g (kahnLoop g fuel inDeg queue result)[i],
          d ∈ (kahnLoop g fuel inDeg queue result).take i) ∧
      (∀ n ∈ graphKeys g, n ∉ kahnLoop g fuel inDeg queue result →
        ∃ d ∈ edgesOf g n, d ∉ kahnLoop g fuel inDeg queue result) := by
  intro fuel
  induction fuel with
  | zero =>
    intro inDeg queue result hinv hfuel
    exfalso
    have hsub : result.Subperm (graphKeys g) :=
      List.Nodup.subperm hinv.resNodup hinv.resKeys
    have := List.Subperm.length_le hsub
    omega
  | succ fuel ih =>
    intro inDeg queue result hinv hfuel
    cases queue with
    | nil =>
      rw [kahnLoop]
      exact ⟨hinv.resNodup, hinv.resKeys, hinv.resOrdered,
        fun n hn hr => hinv.resComplete n hn (by simp) hr⟩
    | cons current rest =>
      rw [kahnLoop]
      have hstep := kahnInv_step hwf hinv
      have hlen : (graphKeys g).length + 1
          ≤ fuel + (result ++ [current]).length := by
        rw [List.length_append]
        simp only [List.length_singleton]
        omega
      exact ih _ _ _ hstep hlen

/-! ### Cycles -/

/-- In a finite set in which every member has a successor inside the set,
every member reaches a cycle. -/
theorem reach_cycle_of_succ (U : List String) (Rel : String → String → Prop)
    (hU : ∀ n ∈ U, ∃ d ∈ U, Rel n d) :
    ∀ n ∈ U, ∃ a, Relation.ReflTransGen Rel n a ∧ Relation.TransGen Rel a a := by
  classical
  have hex : ∀ n : String, ∃ d : String, n ∈ U → d ∈ U ∧ Rel n d := by
    intro n
    by_cases hn : n ∈ U
    · rcases hU n hn with ⟨d, hd, hr⟩
      exact ⟨d, fun _ => ⟨hd, hr⟩⟩
    · exact ⟨n, fun hc => absurd hc hn⟩
  choose f hf using hex
  have hclosed : ∀ (k : Nat) (n : String), n ∈ U → f^[k] n ∈ U := by
    intro k
    induction k with
    | zero =>
      intro n hn
      simpa using hn
    | succ k ihk =>
      intro n hn
      rw [Function.iterate_succ_apply']
      exact (hf _ (ihk n hn)).1
  have hstep : ∀ (k : Nat) (n : String), n ∈ U → 0 < k →
      Relation.TransGen Rel n (f^[k] n) := by
    intro k
    induction k with
    | zero =>
      intro n _ h
      omega
    | succ k ihk =>
      intro n hn _
      by_cases hk : 0 < k
      · refine (ihk n hn hk).tail ?_
        rw [Function.iterate_succ_apply']
        exact (hf _ (hclosed k n hn)).2
      · have hk0 : k = 0 := by omega
        subst hk0
        rw [Function.iterate_one]
        exact Relation.TransGen.single (hf n hn).2
  intro n hn
  have hmaps : ∀ i ∈ Finset.range (U.length + 1), f^[i] n ∈ U.toFinset :=
    fun i _ => List.mem_toFinset.mpr (hclosed i n hn)
  have hcard : U.toFinset.card < (Finset.range (U.length + 1)).card := by
    rw [Finset.card_range]
    exact Nat.lt_succ_of_le (List.toFinset_card_le U)
  rcases Finset.exists_ne_map_eq_of_card_lt_of_maps_to hcard hmaps with
    ⟨i, _, j, _, hij, heq⟩
  have haux : ∀ i j : Nat, i < j → f^[i] n = f^[j] n →
      ∃ a, Relation.ReflTransGen Rel n a ∧ Relation.TransGen Rel a a := by
    intro i j hlt he
    refine ⟨f^[i] n, ?_, ?_⟩
    · rcases Nat.eq_zero_or_pos i with h0 | hpos
      · subst h0
        rw [Function.iterate_zero_apply]
      · exact (hstep i n hn hpos).to_reflTransGen
    · have hsplit : f^[j] n = f^[j - i] (f^[i] n) := by
        rw [← Function.iterate_add_apply]
        congr 1
        omega
      have hcyc := hstep (j - i) (f^[i] n) (hclosed i n hn) (by omega)
      rw [← hsplit, ← he] at hcyc
      exact hcyc
  rcases Nat.lt_or_ge i j with hlt | hge
  · exact haux i j hlt heq
  · exact haux j i (by omega) heq.symm

/-- Existence of a rank function strictly decreasing along edges shows the
graph acyclic. -/
theorem acyclic_of_rank {g : DependencyGraph} (rank : String → Nat)
    (h : ∀ x y, Edge g x y → rank y < rank x) : Acyclic g := by
  rintro ⟨a, hc⟩
  have hmono : ∀ x y, Relation.TransGen (Edge g) x y → rank y < rank x := by
    intro x y hxy
    induction hxy with
    | single h1 => exact h _ _ h1
    | tail _ h2 ih => exact lt_trans (h _ _ h2) ih
  exact absurd (hmono a a hc) (lt_irrefl _)

theorem indexOf_lt_of_mem_take {l : List String} {x : String} {i : Nat}
    (h : x ∈ l.take i) : List.indexOf x l < i := by
  induction l generalizing i with
  | nil => simp at h
  | cons a t ih =>
    cases i with
    | zero => simp at h
    | succ i =>
      rw [List.take_succ_cons] at h
      rcases List.mem_cons.mp h with rfl | h'
      · rw [List.indexOf_cons_self]
        omega
      · by_cases hax : a = x
        · subst hax
          rw [List.indexOf_cons_self]
          omega
        · rw [List.indexOf_cons_ne _ hax]
          exact Nat.succ_lt_succ (ih h')

/-- A dependency-ordered list is closed under following edges. -/
theorem ordered_closed {g : DependencyGraph} {R : List String}
    (hord : ∀ (i : Nat) (h : i < R.length), ∀ d ∈ edgesOf g R[i], d ∈ R.take i) :
    ∀ a ∈ R, ∀ d, Edge g a d → d ∈ R := by
  intro a ha d hd
  rcases List.mem_iff_get.mp ha with ⟨⟨i, hi⟩, hget⟩
  rw [List.get_eq_getElem] at hget
  subst hget
  exact List.mem_of_mem_take (hord i hi d hd)

/-- No member of a dependency-ordered list lies on a cycle. -/
theorem ordered_no_cycle {g : DependencyGraph} {R : List String}
    (hord : ∀ (i : Nat) (h : i < R.length), ∀ d ∈ edgesOf g R[i], d ∈ R.take i) :
    ∀ a ∈ R, ¬ Relation.TransGen (Edge g) a a := by
  have hdec : ∀ a ∈ R, ∀ d, Edge g a d →
      List.indexOf d R < List.indexOf a R := by
    intro a ha d hd
    have hia : List.indexOf a R < R.length := List.indexOf_lt_length.mpr ha
    have hget : R[List.indexOf a R] = a := by
      have := List.indexOf_get hia
      rw [List.get_eq_getElem] at this
      exact this
    have hmem : d ∈ R.take (List.indexOf a R) := by
      apply hord (List.indexOf a R) hia
      rw [hget]
      exact hd
    exact indexOf_lt_of_mem_take hmem
  have htrans : ∀ a b, Relation.TransGen (Edge g) a b → a ∈ R →
      b ∈ R ∧ List.indexOf b R < List.indexOf a R := by
    intro a b h
    induction h with
    | single h1 =>
      intro ha
      exact ⟨ordered_closed hord _ ha _ h1, hdec _ ha _ h1⟩
    | tail _ h2 ih =>
      intro ha
      rcases ih ha with ⟨hb, hlt⟩
      exact ⟨ordered_closed hord _ hb _ h2,
        lt_trans (hdec _ hb _ h2) hlt⟩
  intro a ha hcyc
  have := (htrans a a hcyc ha).2
  omega

/-! ### `topologicalSort` characterisation -/

theorem graphKeys_length (g : DependencyGraph) :
    (graphKeys g).length = g.nodes.length := by
  unfold graphKeys akeys
  rw [List.length_map]

theorem kahnRun_facts {g : DependencyGraph} (hwf : WellFormed g) :
    (kahnRun g).Nodup ∧
    (∀ n ∈ kahnRun g, n ∈ graphKeys g) ∧
    (∀ (i : Nat) (h : i < (kahnRun g).length),
      ∀ d ∈ edgesOf g (kahnRun g)[i], d ∈ (kahnRun g).take i) ∧
    (∀ n ∈ graphKeys g, n ∉ kahnRun g →
      ∃ d ∈ edgesOf g n, d ∉ kahnRun g) := by
  exact kahnLoop_spec hwf (g.nodes.length + 1) _ _ [] (kahnInv_init hwf)
    (by rw [graphKeys_length]; simp)

theorem kahnRun_perm {g : DependencyGraph} (hwf : WellFormed g)
    (hlen : (kahnRun g).length = g.nodes.length) :
    (kahnRun g).Perm (graphKeys g) := by
  rcases kahnRun_facts hwf with ⟨hnodup, hsub, _, _⟩
  refine List.Subperm.perm_of_length_le (List.Nodup.subperm hnodup hsub) ?_
  rw [hlen, graphKeys_length]

theorem kahnRun_missing_reaches_cycle {g : DependencyGraph}
    (hwf : WellFormed g) {n : String} (hn : n ∈ graphKeys g)
    (hmiss : n ∉ kahnRun g) : ReachesCycle g n := by
  rcases kahnRun_facts hwf with ⟨_, _, _, hcomplete⟩
  have hU : ∀ m ∈ (graphKeys g).filter (fun x => decide (x ∉ kahnRun g)),
      ∃ d ∈ (graphKeys g).filter (fun x => decide (x ∉ kahnRun g)),
        Edge g m d := by
    intro m hm
    rcases List.mem_filter.mp hm with ⟨hmk, hmr⟩
    rcases hcomplete m hmk (of_decide_eq_true hmr) with ⟨d, hd, hdr⟩
    exact ⟨d, List.mem_filter.mpr ⟨wf_edges_sub hwf hmk hd, by simp [hdr]⟩, hd⟩
  rcases reach_cycle_of_succ _ (Edge g) hU n
      (List.mem_filter.mpr ⟨hn, by simp [hmiss]⟩) with ⟨a, h1, h2⟩
  exact ⟨a, h1, h2⟩

theorem kahnRun_mem_no_cycle {g : DependencyGraph} (hwf : WellFormed g)
    {n : String} (hn : n ∈ kahnRun g) : ¬ ReachesCycle g n := by
  rcases kahnRun_facts hwf with ⟨_, _, hord, _⟩
  rintro ⟨a, hreach, hcyc⟩
  have hclose : ∀ x y, Relation.ReflTransGen (Edge g) x y →
      x ∈ kahnRun g → y ∈ kahnRun g := by
    intro x y hr
    induction hr with
    | refl => exact id
    | tail _ h2 ih =>
      intro hx
      exact ordered_closed hord _ (ih hx) _ h2
  exact ordered_no_cycle hord a (hclose n a hreach hn) hcyc

theorem acyclic_kahnRun_length {g : DependencyGraph} (hwf : WellFormed g)
    (hA : Acyclic g) : (kahnRun g).length = g.nodes.length := by
  by_contra hne
  rcases kahnRun_facts hwf with ⟨hnodup, hsub, _, _⟩
  have hlt : (kahnRun g).length ≤ (graphKeys g).length :=
    List.Subperm.length_le (List.Nodup.subperm hnodup hsub)
  have hmiss : ∃ n ∈ graphKeys g, n ∉ kahnRun g := by
    by_contra hall
    push_neg at hall
    have : (graphKeys g).length ≤ (kahnRun g).length :=
      List.Subperm.length_le (List.Nodup.subperm (wf_keys_nodup hwf) hall)
    rw [graphKeys_length] at this hlt
    omega
  rcases hmiss with ⟨n, hn, hmiss⟩
  rcases kahnRun_missing_reaches_cycle hwf hn hmiss with ⟨a, _, hcyc⟩
  exact hA ⟨a, hcyc⟩

/-- C1: on every well-formed acyclic dependency graph, `topologicalSort`
returns a linear ordering of all graph nodes in which every node appears
strictly after all nodes it depends on; on every well-formed graph with a
dependency cycle it raises the cycle error, whose payload is non-empty and
names exactly the nodes that could not be ordered — those from which a
cycle is reachable, i.e. the nodes absent from the partial ordering. -/
theorem topologicalSort_correct (g : DependencyGraph) (hwf : WellFormed g) :
    (Acyclic g →
      ∃ l, topologicalSort g = Except.ok l ∧ l.Perm (graphKeys g) ∧
        ∀ (i : Nat) (h : i < l.length), ∀ d ∈ edgesOf g l[i], d ∈ l.take i) ∧
    (¬ Acyclic g →
      ∃ rem, topologicalSort g = Except.error (GraphError.cycleDetected rem) ∧
        rem ≠ [] ∧ ∀ n, (n ∈ rem ↔ n ∈ graphKeys g ∧ ReachesCycle g n)) := by
  constructor
  · intro hA
    have hlen := acyclic_kahnRun_length hwf hA
    refine ⟨kahnRun g, ?_, kahnRun_perm hwf hlen, (kahnRun_facts hwf).2.2.1⟩
    unfold topologicalSort
    rw [if_neg (not_not_intro hlen)]
  · intro hNA
    rcases Classical.not_not.mp hNA with ⟨a, hcyc⟩
    have haK : a ∈ graphKeys g := by
      rcases (Relation.TransGen.head'_iff.mp hcyc) with ⟨b, hab, _⟩
      exact edge_source_mem hwf hab
    have haR : a ∉ kahnRun g := by
      intro hc
      exact kahnRun_mem_no_cycle hwf hc ⟨a, Relation.ReflTransGen.refl, hcyc⟩
    have hlen : (kahnRun g).length ≠ g.nodes.length := by
      intro hc
      exact haR (((kahnRun_perm hwf hc).mem_iff).mpr haK)
    refine ⟨(graphKeys g).filter (fun n => decide (n ∉ kahnRun g)), ?_, ?_, ?_⟩
    · unfold topologicalSort
      rw [if_pos hlen]
    · exact List.ne_nil_of_mem (List.mem_filter.mpr ⟨haK, by simp [haR]⟩)
    · intro n
      constructor
      · intro hn
        rcases List.mem_filter.mp hn with ⟨hnk, hnr⟩
        exact ⟨hnk,
          kahnRun_missing_reaches_cycle hwf hnk (of_decide_eq_true hnr)⟩
      · rintro ⟨hnk, hrc⟩
        refine List.mem_filter.mpr ⟨hnk, ?_⟩
        have : n ∉ kahnRun g :=
          fun hc => kahnRun_mem_no_cycle hwf hc hrc
        simp [this]

/-- Facts about a successful `topologicalSort` output, used by the
layering claims: the ordering is duplicate-free, contains exactly the graph
nodes, and lists every node's dependencies strictly before it. -/
theorem topologicalSort_ok_facts {g : DependencyGraph} (hwf : WellFormed g)
    {sorted : List String} (h : topologicalSort g = Except.ok sorted) :
    sorted.Nodup ∧ (∀ n, n ∈ sorted ↔ n ∈ graphKeys g) ∧
    ∀ (i : Nat) (hi : i < sorted.length),
      ∀ d ∈ edgesOf g sorted[i], d ∈ sorted.take i := by
  unfold topologicalSort at h
  by_cases hc : (kahnRun g).length ≠ g.nodes.length
  · rw [if_pos hc] at h
    cases h
  · rw [if_neg hc] at h
    have hse : kahnRun g = sorted := by
      injection h
    subst hse
    rcases kahnRun_facts hwf with ⟨hnodup, _, hord, _⟩
    have hperm := kahnRun_perm hwf (Classical.not_not.mp hc)
    exact ⟨hnodup, fun n => hperm.mem_iff, hord⟩

/-- C1 witness: the acyclic branch applied to the concrete two-node chain
graph (node `b` depends on node `a`). -/
theorem topologicalSort_correct_witness :
    ∃ l, topologicalSort chainGraph = Except.ok l ∧
      l.Perm (graphKeys chainGraph) ∧
      ∀ (i : Nat) (h : i < l.length),
        ∀ d ∈ edgesOf chainGraph l[i], d ∈ l.take i := by
  have hedges : ∀ x y, Edge chainGraph x y → x = "b" ∧ y = "a" := by
    intro x y hE
    unfold Edge at hE
    by_cases h1 : x = "a"
    · subst h1
      have : edgesOf chainGraph "a" = [] := by decide
      rw [this] at hE
      simp at hE
    · by_cases h2 : x = "b"
      · subst h2
        have : edgesOf chainGraph "b" = ["a"] := by decide
        rw [this] at hE
        exact ⟨rfl, List.mem_singleton.mp hE⟩
      · have hnone : edgesOf chainGraph x = [] := by
          unfold edgesOf
          rw [show chainGraph.edges = [("a", []), ("b", ["a"])] from by decide]
          simp only [alookup]
          rw [if_neg (fun hh => h1 hh.symm), if_neg (fun hh => h2 hh.symm)]
          rfl
        rw [hnone] at hE
        simp at hE
  have hacyc : Acyclic chainGraph := by
    refine acyclic_of_rank (fun x => if x = "b" then 1 else 0) ?_
    intro x y hE
    rcases hedges x y hE with ⟨rfl, rfl⟩
    simp
  exact (topologicalSort_correct chainGraph (by decide)).1 hacyc

/-! ### Build layers (Claims C2 and C9) -/

theorem mem_foldl_setAdd (l : List String) (s : List String) (x : String) :
    x ∈ l.foldl setAdd s ↔ x ∈ s ∨ x ∈ l := by
  induction l generalizing s with
  | nil => simp
  | cons a t ih =>
    rw [List.foldl_cons, ih, mem_setAdd]
    constructor
    · rintro ((h | rfl) | h)
      · exact Or.inl h
      · exact Or.inr (by simp)
      · exact Or.inr (by simp [h])
    · rintro (h | h)
      · exact Or.inl (Or.inl h)
      · rcases List.mem_cons.mp h with rfl | h'
        · exact Or.inl (Or.inr rfl)
        · exact Or.inr h'

theorem nodup_foldl_setAdd (l : List String) {s : List String}
    (hs : s.Nodup) : (l.foldl setAdd s).Nodup := by
  induction l generalizing s with
  | nil => exact hs
  | cons a t ih => exact ih (setAdd_nodup hs a)

theorem length_foldl_setAdd_mono (l : List String) (s : List String) :
    s.length ≤ (l.foldl setAdd s).length := by
  induction l generalizing s with
  | nil => exact le_rfl
  | cons a t ih =>
    exact le_trans (setAdd_length_ge s a) (ih (setAdd s a))

theorem length_foldl_setAdd_grow {l s : List String} {x : String}
    (hx : x ∈ l) (hxs : x ∉ s) :
    s.length < (l.foldl setAdd s).length := by
  induction l generalizing s with
  | nil => simp at hx
  | cons a t ih =>
    rw [List.foldl_cons]
    rcases List.mem_cons.mp hx with rfl | hx'
    · exact lt_of_lt_of_le (setAdd_length_gt hxs)
        (length_foldl_setAdd_mono t (setAdd s x))
    · by_cases has : x ∈ setAdd s a
      · have : a = x := by
          rcases mem_setAdd.mp has with h | h
          · exact absurd h hxs
          · exact h.symm
        subst this
        exact lt_of_lt_of_le (setAdd_length_gt hxs)
          (length_foldl_setAdd_mono t (setAdd s a))
      · exact lt_of_le_of_lt (setAdd_length_ge s a) (ih hx' has)

theorem mem_nested_foldl (ll : List (List String)) (s : List String)
    (x : String) :
    x ∈ ll.foldl (fun s l => l.foldl setAdd s) s ↔
      x ∈ s ∨ ∃ l ∈ ll, x ∈ l := by
  induction ll generalizing s with
  | nil => simp
  | cons a t ih =>
    rw [List.foldl_cons, ih, mem_foldl_setAdd]
    constructor
    · rintro ((h | h) | ⟨l, hl, hx⟩)
      · exact Or.inl h
      · exact Or.inr ⟨a, by simp, h⟩
      · exact Or.inr ⟨l, by simp [hl], hx⟩
    · rintro (h | ⟨l, hl, hx⟩)
      · exact Or.inl (Or.inl h)
      · rcases List.mem_cons.mp hl with rfl | hl'
        · exact Or.inl (Or.inr hx)
        · exact Or.inr ⟨l, hl', hx⟩

theorem mem_computeLayer {sorted assigned : List String}
    {g : DependencyGraph} {p : String} :
    p ∈ computeLayer sorted assigned g ↔
      p ∈ sorted ∧ p ∉ assigned ∧ ∀ d ∈ edgesOf g p, d ∈ assigned := by
  unfold computeLayer
  rw [List.mem_filter]
  constructor
  · rintro ⟨h1, h2⟩
    rw [Bool.and_eq_true] at h2
    refine ⟨h1, ?_, ?_⟩
    · intro hc
      have := h2.1
      simp [hc] at this
    · intro d hd
      have := List.all_eq_true.mp h2.2 d hd
      exact of_decide_eq_true this
  · rintro ⟨h1, h2, h3⟩
    refine ⟨h1, ?_⟩
    rw [Bool.and_eq_true]
    exact ⟨by simp [h2], List.all_eq_true.mpr (fun d hd => by simp [h3 d hd])⟩

/-- In a dependency-ordered list, the dependencies of the element following
a prefix all lie in that prefix. -/
theorem ordered_split {g : DependencyGraph} {sorted : List String}
    (hord : ∀ (i : Nat) (hi : i < sorted.length),
      ∀ d ∈ edgesOf g sorted[i], d ∈ sorted.take i)
    (l₁ l₂ : List String) (p : String) (hsplit : sorted = l₁ ++ p :: l₂) :
    ∀ d ∈ edgesOf g p, d ∈ l₁ := by
  have hlen : l₁.length < sorted.length := by
    rw [hsplit, List.length_append]
    simp
  have hget : sorted[l₁.length] = p := by
    subst hsplit
    rw [List.getElem_append_right (le_refl l₁.length)]
    simp
  have htake : sorted.take l₁.length = l₁ := by
    rw [hsplit, List.take_append_of_le_length le_rfl]
    simp
  intro d hd
  have := hord l₁.length hlen d (by rw [hget]; exact hd)
  rw [htake] at this
  exact this

/-- C9 core: on a valid topological order, every scan pass that still has
unassigned packages assigns at least one. -/
theorem computeLayer_ne_nil {g : DependencyGraph} {sorted assigned : List String}
    (hnodup : sorted.Nodup)
    (hord : ∀ (i : Nat) (hi : i < sorted.length),
      ∀ d ∈ edgesOf g sorted[i], d ∈ sorted.take i)
    (hlen : assigned.length < sorted.length) :
    computeLayer sorted assigned g ≠ [] := by
  have hdrop : sorted.dropWhile (fun x => decide (x ∈ assigned)) ≠ [] := by
    intro hc
    have hall := List.dropWhile_eq_nil_iff.mp hc
    have : sorted.Subperm assigned :=
      List.Nodup.subperm hnodup (fun x hx => of_decide_eq_true (hall x hx))
    have := List.Subperm.length_le this
    omega
  set p := (sorted.dropWhile (fun x => decide (x ∈ assigned))).head hdrop with hp
  have hpassigned : p ∉ assigned := by
    have := List.head_dropWhile_not (fun x => decide (x ∈ assigned)) sorted hdrop
    rw [← hp] at this
    simpa using this
  have hsplit : sorted
      = sorted.takeWhile (fun x => decide (x ∈ assigned)) ++ p ::
        (sorted.dropWhile (fun x => decide (x ∈ assigned))).tail := by
    rw [hp, List.head_cons_tail]
    exact (List.takeWhile_append_dropWhile _ _).symm
  have hpmem : p ∈ sorted := by
    rw [hsplit]
    simp
  have hdeps : ∀ d ∈ edgesOf g p, d ∈ assigned := by
    intro d hd
    have := ordered_split hord _ _ p hsplit d hd
    exact of_decide_eq_true
      (@List.mem_takeWhile_imp String (fun x => decide (x ∈ assigned))
        sorted d this)
  intro hc
  have : p ∈ computeLayer sorted assigned g :=
    mem_computeLayer.mpr ⟨hpmem, hpassigned, hdeps⟩
  rw [hc] at this
  simp at this

theorem layersGo_ok {g : DependencyGraph} {sorted : List String}
    (hnodup : sorted.Nodup)
    (hord : ∀ (i : Nat) (hi : i < sorted.length),
      ∀ d ∈ edgesOf g sorted[i], d ∈ sorted.take i) :
    ∀ (fuel : Nat) (assigned : List String) (acc : List (List String)),
      sorted.length + 1 ≤ fuel + assigned.length →
      assigned.Nodup → (∀ a ∈ assigned, a ∈ sorted) →
      ∃ ls, layersGo g sorted fuel assigned acc = Except.ok ls := by
  intro fuel
  induction fuel with
  | zero =>
    intro assigned acc hfuel _ _
    refine ⟨acc, ?_⟩
    rw [layersGo, if_neg (by omega)]
  | succ fuel ih =>
    intro assigned acc hfuel hnd hsub
    by_cases hc : assigned.length < sorted.length
    · have hlne := computeLayer_ne_nil hnodup hord hc
      have hgrow : assigned.length
          < ((computeLayer sorted assigned g).foldl setAdd assigned).length := by
        match hl : computeLayer sorted assigned g, hlne with
        | p :: t, _ =>
          have hp : p ∈ computeLayer sorted assigned g := by
            rw [hl]
            simp
          rcases mem_computeLayer.mp hp with ⟨_, hpa, _⟩
          rw [← hl]
          exact length_foldl_setAdd_grow hp hpa
      rcases ih ((computeLayer sorted assigned g).foldl setAdd assigned)
          (acc ++ [computeLayer sorted assigned g]) (by omega)
          (nodup_foldl_setAdd _ hnd)
          (fun a ha => by
            rcases (mem_foldl_setAdd _ _ a).mp ha with h | h
            · exact hsub a h
            · exact (mem_computeLayer.mp h).1) with ⟨ls, hls⟩
      refine ⟨ls, ?_⟩
      rw [layersGo, if_pos hc, if_neg hlne]
      exact hls
    · refine ⟨acc, ?_⟩
      rw [layersGo, if_neg hc]

theorem layersGo_layersFrom {g : DependencyGraph} {sorted : List String} :
    ∀ (fuel : Nat) (assigned : List String) (acc ls : List (List String)),
      layersGo g sorted fuel assigned acc = Except.ok ls →
      ∃ suffix, ls = acc ++ suffix ∧ LayersFrom g sorted assigned suffix := by
  intro fuel
  induction fuel with
  | zero =>
    intro assigned acc ls h
    rw [layersGo] at h
    by_cases hc : assigned.length < sorted.length
    · rw [if_pos hc] at h
      cases h
    · rw [if_neg hc] at h
      injection h with h
      exact ⟨[], by simp [h.symm], LayersFrom.nil hc⟩
  | succ fuel ih =>
    intro assigned acc ls h
    rw [layersGo] at h
    by_cases hc : assigned.length < sorted.length
    · rw [if_pos hc] at h
      by_cases hl : computeLayer sorted assigned g = []
      · rw [if_pos hl] at h
        cases h
      · rw [if_neg hl] at h
        rcases ih _ _ _ h with ⟨suffix, hls, hfrom⟩
        refine ⟨computeLayer sorted assigned g :: suffix, ?_, ?_⟩
        · rw [hls]
          simp
        · exact LayersFrom.cons hc hl hfrom
    · rw [if_neg hc] at h
      injection h with h
      exact ⟨[], by simp [h.symm], LayersFrom.nil hc⟩

theorem assignedUpTo_zero (assigned : List String)
    (layers : List (List String)) : assignedUpTo assigned layers 0 = assigned :=
  rfl

theorem assignedUpTo_cons_succ (assigned : List String)
    (layer : List String) (rest : List (List String)) (i : Nat) :
    assignedUpTo assigned (layer :: rest) (i + 1)
      = assignedUpTo (layer.foldl setAdd assigned) rest i := by
  unfold assignedUpTo
  rw [List.take_succ_cons, List.foldl_cons]

/-- Structural characterisation of the produced layers: layer `i` is the
scan of `sorted` against the set assigned before it, and afterwards every
package of `sorted` is assigned. -/
theorem layersFrom_char {g : DependencyGraph} {sorted : List String} :
    ∀ {assigned : List String} {suffix : List (List String)},
      LayersFrom g sorted assigned suffix →
      (∀ (i : Nat) (hi : i < suffix.length),
        suffix[i] = computeLayer sorted (assignedUpTo assigned suffix i) g) ∧
      ¬ ((assignedUpTo assigned suffix suffix.length).length < sorted.length) := by
  intro assigned suffix h
  induction h with
  | nil hlen =>
    exact ⟨fun i hi => by simp at hi, by simpa [assignedUpTo] using hlen⟩
  | cons hlen hne _ ih =>
    rcases ih with ⟨ih1, ih2⟩
    constructor
    · intro i hi
      cases i with
      | zero => rfl
      | succ i =>
        rw [assignedUpTo_cons_succ]
        have hi' : i < _ := Nat.lt_of_succ_lt_succ (by simpa using hi)
        exact ih1 i hi'
    · rw [List.length_cons, assignedUpTo_cons_succ]
      exact ih2

theorem assignedUpTo_succ (assigned : List String)
    (layers : List (List String)) {i : Nat} (hi : i < layers.length) :
    assignedUpTo assigned layers (i + 1)
      = (layers[i]).foldl setAdd (assignedUpTo assigned layers i) := by
  unfold assignedUpTo
  rw [List.take_succ, List.getElem?_eq_getElem hi, List.foldl_append]
  rfl

theorem assignedUpTo_stable (assigned : List String)
    (layers : List (List String)) {i : Nat} (hi : layers.length ≤ i) :
    assignedUpTo assigned layers i = assignedUpTo assigned layers layers.length := by
  unfold assignedUpTo
  rw [List.take_of_length_le hi, List.take_of_length_le le_rfl]

theorem mem_assignedUpTo (assigned : List String)
    (layers : List (List String)) (i : Nat) (x : String) :
    x ∈ assignedUpTo assigned layers i ↔
      x ∈ assigned ∨ ∃ j, j < i ∧ x ∈ layers.getD j [] := by
  unfold assignedUpTo
  rw [mem_nested_foldl]
  constructor
  · rintro (h | ⟨l, hl, hx⟩)
    · exact Or.inl h
    · rcases List.mem_iff_getElem.mp hl with ⟨j, hj, hlj⟩
      have hj2 : j < layers.length := by
        have := hj
        rw [List.length_take] at this
        omega
      have hji : j < i := by
        have := hj
        rw [List.length_take] at this
        omega
      refine Or.inr ⟨j, hji, ?_⟩
      rw [List.getD_eq_getElem layers [] hj2, ← List.getElem_take layers, hlj]
      exact hx
  · rintro (h | ⟨j, hji, hx⟩)
    · exact Or.inl h
    · by_cases hj : j < layers.length
      · rw [List.getD_eq_getElem layers [] hj] at hx
        refine Or.inr ⟨layers[j], ?_, hx⟩
        rw [List.mem_iff_getElem]
        refine ⟨j, ?_, ?_⟩
        · rw [List.length_take]
          omega
        · exact List.getElem_take layers
      · rw [List.getD_eq_default layers [] (by omega)] at hx
        simp at hx

/-- C9: if the input ordering is the successful output of `topologicalSort`
on a well-formed graph, the no-progress error branch of `getBuildLayers` is
unreachable — every scan pass assigns at least one package and the function
returns a layering. -/
theorem getBuildLayers_no_error (g : DependencyGraph) (hwf : WellFormed g)
    (sorted : List String) (hok : topologicalSort g = Except.ok sorted) :
    ∃ ls, getBuildLayers sorted g = Except.ok ls := by
  rcases topologicalSort_ok_facts hwf hok with ⟨hnodup, _, hord⟩
  exact layersGo_ok hnodup hord (sorted.length + 1) [] [] (by simp)
    List.nodup_nil (by simp)

/-- C9 witness: the chain graph and its topological order. -/
theorem getBuildLayers_no_error_witness :
    ∃ ls, getBuildLayers ["a", "b"] chainGraph = Except.ok ls :=
  getBuildLayers_no_error chainGraph (by decide) ["a", "b"] rfl

/-- C2: on a well-formed graph and its topological ordering,
`getBuildLayers` succeeds and assigns every package to exactly one layer;
a package with no in-graph dependencies is exactly the content of layer 0;
every dependency of a layer-`i` package lies in a layer `j < i`; and for a
package with dependencies some dependency lies in layer `i - 1` — i.e.
each package's layer index is exactly 1 + the maximum layer index of its
direct in-graph dependencies, or 0 if it has none. -/
theorem getBuildLayers_correct (g : DependencyGraph) (hwf : WellFormed g)
    (sorted : List String) (hok : topologicalSort g = Except.ok sorted) :
    ∃ layers, getBuildLayers sorted g = Except.ok layers ∧
      (∀ p ∈ graphKeys g, ∃ i, i < layers.length ∧ p ∈ layers.getD i [] ∧
        ∀ j, p ∈ layers.getD j [] → j = i) ∧
      (∀ (i : Nat) (p : String), p ∈ layers.getD i [] →
        (edgesOf g p = [] → i = 0) ∧
        (∀ d ∈ edgesOf g p, ∃ j, j < i ∧ d ∈ layers.getD j []) ∧
        (edgesOf g p ≠ [] → ∃ d ∈ edgesOf g p, d ∈ layers.getD (i - 1) [])) ∧
      (∀ p, p ∈ layers.getD 0 [] ↔ p ∈ graphKeys g ∧ edgesOf g p = []) := by
  rcases topologicalSort_ok_facts hwf hok with ⟨hnodup, hmem, hord⟩
  rcases layersGo_ok hnodup hord (sorted.length + 1) [] [] (by simp)
    List.nodup_nil (by simp) with ⟨layers, hls⟩
  rcases layersGo_layersFrom _ [] [] layers hls with ⟨suffix, hsuf, hfrom⟩
  have hsx : suffix = layers := by
    rw [hsuf]
    simp
  subst hsx
  rcases layersFrom_char hfrom with ⟨hchar, hcov⟩
  have hup : ∀ (i : Nat) (x : String),
      x ∈ assignedUpTo [] suffix i ↔ ∃ j, j < i ∧ x ∈ suffix.getD j [] := by
    intro i x
    rw [mem_assignedUpTo]
    simp
  have hprops : ∀ i : Nat, (assignedUpTo [] suffix i).Nodup ∧
      ∀ a ∈ assignedUpTo [] suffix i, a ∈ sorted := by
    intro i
    induction i with
    | zero => exact ⟨List.nodup_nil, by simp [assignedUpTo_zero]⟩
    | succ i ih =>
      by_cases hi : i < suffix.length
      · rw [assignedUpTo_succ [] suffix hi]
        refine ⟨nodup_foldl_setAdd _ ih.1, ?_⟩
        intro a ha
        rcases (mem_foldl_setAdd _ _ a).mp ha with h | h
        · exact ih.2 a h
        · rw [hchar i hi] at h
          exact (mem_computeLayer.mp h).1
      · rw [show i + 1 = i + 1 from rfl,
          assignedUpTo_stable [] suffix (by omega),
          ← assignedUpTo_stable [] suffix (le_of_not_lt hi)]
        exact ih
  have hgetD : ∀ (i : Nat) (p : String), p ∈ suffix.getD i [] →
      ∃ hi : i < suffix.length, p ∈ suffix[i] := by
    intro i p hp
    by_cases hi : i < suffix.length
    · rw [List.getD_eq_getElem suffix [] hi] at hp
      exact ⟨hi, hp⟩
    · rw [List.getD_eq_default suffix [] (by omega)] at hp
      simp at hp
  have hlayer_iff : ∀ (i : Nat) (hi : i < suffix.length) (p : String),
      p ∈ suffix[i] ↔ p ∈ sorted ∧ p ∉ assignedUpTo [] suffix i ∧
        ∀ d ∈ edgesOf g p, d ∈ assignedUpTo [] suffix i := by
    intro i hi p
    rw [hchar i hi]
    exact mem_computeLayer
  have huniq2 : ∀ (i j : Nat) (p : String), i < j → p ∈ suffix.getD i [] →
      p ∈ suffix.getD j [] → False := by
    intro i j p hij hpi hpj
    rcases hgetD j p hpj with ⟨hj, hpj'⟩
    have := ((hlayer_iff j hj p).mp hpj').2.1
    exact this ((hup j p).mpr ⟨i, hij, hpi⟩)
  have huniq : ∀ (i j : Nat) (p : String), p ∈ suffix.getD i [] →
      p ∈ suffix.getD j [] → i = j := by
    intro i j p hpi hpj
    rcases Nat.lt_trichotomy i j with h | h | h
    · exact absurd (huniq2 i j p h hpi hpj) not_false
    · exact h
    · exact absurd (huniq2 j i p h hpj hpi) not_false
  have hcover : ∀ p ∈ sorted, ∃ j, j < suffix.length ∧ p ∈ suffix.getD j [] := by
    intro p hp
    have hUlen := hprops suffix.length
    have hperm : (assignedUpTo [] suffix suffix.length).Perm sorted :=
      List.Subperm.perm_of_length_le
        (List.Nodup.subperm hUlen.1 hUlen.2) (by omega)
    have : p ∈ assignedUpTo [] suffix suffix.length := hperm.mem_iff.mpr hp
    exact (hup suffix.length p).mp this
  refine ⟨suffix, hls, ?_, ?_, ?_⟩
  · intro p hp
    rcases hcover p ((hmem p).mpr hp) with ⟨i, hi, hpi⟩
    exact ⟨i, hi, hpi, fun j hj => huniq j i p hj hpi⟩
  · intro i p hp
    rcases hgetD i p hp with ⟨hi, hpi⟩
    rcases (hlayer_iff i hi p).mp hpi with ⟨hps, hpu, hpd⟩
    have hdeps_earlier : ∀ d ∈ edgesOf g p, ∃ j, j < i ∧ d ∈ suffix.getD j [] :=
      fun d hd => (hup i d).mp (hpd d hd)
    refine ⟨?_, hdeps_earlier, ?_⟩
    · intro hnil
      by_contra h0
      have h0lt : 0 < suffix.length := by omega
      have : p ∈ suffix[0] := by
        rw [hlayer_iff 0 h0lt p]
        refine ⟨hps, ?_, ?_⟩
        · rw [assignedUpTo_zero]
          simp
        · intro d hd
          rw [hnil] at hd
          simp at hd
      have : p ∈ suffix.getD 0 [] := by
        rw [List.getD_eq_getElem suffix [] h0lt]
        exact this
      exact h0 (huniq i 0 p hp this)
    · intro hne
      have hipos : 0 < i := by
        by_contra hi0
        have hi0' : i = 0 := by omega
        subst hi0'
        have : ∀ d ∈ edgesOf g p, d ∈ ([] : List String) := by
          intro d hd
          have := hpd d hd
          rw [assignedUpTo_zero] at this
          exact this
        rcases exists_mem_of_length_pos (List.length_pos.mpr hne) with ⟨d, hd⟩
        simpa using this d hd
      by_cases hall : ∀ d ∈ edgesOf g p, d ∈ assignedUpTo [] suffix (i - 1)
      · exfalso
        have hi1 : i - 1 < suffix.length := by omega
        have hpnot : p ∉ assignedUpTo [] suffix (i - 1) := by
          intro hc
          rcases (hup (i - 1) p).mp hc with ⟨j, hj, hpj⟩
          exact huniq2 j i p (by omega) hpj hp
        have : p ∈ suffix[i - 1] := by
          rw [hlayer_iff (i - 1) hi1 p]
          exact ⟨hps, hpnot, hall⟩
        have hmem1 : p ∈ suffix.getD (i - 1) [] := by
          rw [List.getD_eq_getElem suffix [] hi1]
          exact this
        have := huniq (i - 1) i p hmem1 hp
        omega
      · push_neg at hall
        rcases hall with ⟨d, hd, hdnot⟩
        rcases hdeps_earlier d hd with ⟨j, hji, hdj⟩
        refine ⟨d, hd, ?_⟩
        have hjge : ¬ (j < i - 1) := by
          intro hc
          exact hdnot ((hup (i - 1) d).mpr ⟨j, hc, hdj⟩)
        have : j = i - 1 := by omega
        rw [← this]
        exact hdj
  · intro p
    constructor
    · intro hp
      rcases hgetD 0 p hp with ⟨h0, hp0⟩
      rcases (hlayer_iff 0 h0 p).mp hp0 with ⟨hps, _, hpd⟩
      refine ⟨(hmem p).mp hps, ?_⟩
      rw [List.eq_nil_iff_forall_not_mem]
      intro d hd
      have := hpd d hd
      rw [assignedUpTo_zero] at this
      simp at this
    · rintro ⟨hpk, hnil⟩
      rcases hcover p ((hmem p).mpr hpk) with ⟨i, hi, hpi⟩
      have : i = 0 := by
        rcases hgetD i p hpi with ⟨hi', hpi'⟩
        by_contra h0
        have h0lt : 0 < suffix.length := by omega
        have hin0 : p ∈ suffix[0] := by
          rw [hlayer_iff 0 h0lt p]
          refine ⟨(hmem p).mpr hpk, by rw [assignedUpTo_zero]; simp, ?_⟩
          intro d hd
          rw [hnil] at hd
          simp at hd
        have hmem0 : p ∈ suffix.getD 0 [] := by
          rw [List.getD_eq_getElem suffix [] h0lt]
          exact hin0
        exact h0 (huniq i 0 p hpi hmem0)
      rw [← this]
      exact hpi

/-- C2 witness: the chain graph, its topological order, and its layers. -/
theorem getBuildLayers_correct_witness :
    ∃ layers, getBuildLayers ["a", "b"] chainGraph = Except.ok layers ∧
      (∀ p ∈ graphKeys chainGraph, ∃ i, i < layers.length ∧
        p ∈ layers.getD i [] ∧ ∀ j, p ∈ layers.getD j [] → j = i) ∧
      (∀ (i : Nat) (p : String), p ∈ layers.getD i [] →
        (edgesOf chainGraph p = [] → i = 0) ∧
        (∀ d ∈ edgesOf chainGraph p, ∃ j, j < i ∧ d ∈ layers.getD j []) ∧
        (edgesOf chainGraph p ≠ [] →
          ∃ d ∈ edgesOf chainGraph p, d ∈ layers.getD (i - 1) [])) ∧
      (∀ p, p ∈ layers.getD 0 [] ↔
        p ∈ graphKeys chainGraph ∧ edgesOf chainGraph p = []) :=
  getBuildLayers_correct chainGraph (by decide) ["a", "b"] rfl

end Bdep
